import Mathlib

/-!
Verification of the path-reconstruction core of `packetgeotrace` (`src/map.py`).

The embedding models locations as pairs of rationals and `math.dist` as the
real-valued planar Euclidean distance (the square root of the rational squared
distance).  Python's side-effecting drawing calls (`folium.PolyLine(...)`) are
modelled as an emitted list of `Segment` values in emission order, and the
recursive planner `PathBuilder.build_path_between` is given an explicit fuel
parameter; exhausting the fuel yields the distinguished error `outOfFuel`,
while Python runtime exceptions (`TypeError`, `KeyError`, `ValueError`) are
modelled as the corresponding error values.
-/

namespace PGT

/-- A location: a `(lat, lon)` pair, as in the tuples keying
`INFRASTRUCTURE_POINTS` in `map.py`. -/
abbrev Loc : Type := ℚ × ℚ

/-- `CABLE_BREAK_LEN = 10` (map.py line 9). -/
def CABLE_BREAK_LEN : ℝ := 10

/-- The squared planar distance between two locations (rational, exact). -/
def sqDist (a b : Loc) : ℚ :=
  (a.1 - b.1) ^ 2 + (a.2 - b.2) ^ 2

/-- `math.dist` on two 2-D points: the planar Euclidean distance. -/
noncomputable def mdist (a b : Loc) : ℝ :=
  Real.sqrt ((sqDist a b : ℚ) : ℝ)

/-- `math.dist` on two 1-D points `(x,)`, `(y,)` as used in
`find_closest_submarine_cable_between` (map.py line 102). -/
noncomputable def mdist1 (x y : ℝ) : ℝ :=
  Real.sqrt ((x - y) ^ 2)

/-- A submarine cable record: `{"name": ..., "endpoints": ..., "geometry": ...}`. -/
structure Cable where
  name : String
  endpoints : List Loc
  geometry : List Loc
deriving DecidableEq

/-- The value stored for a location in `INFRASTRUCTURE_POINTS`: the `"type"`
tag together with the `"data"` payload (map.py lines 18-21, 30-33). -/
inductive PointData where
  | groundEx (name : String)
  | submarine (cable : Cable)
deriving DecidableEq

/-- The infrastructure index `INFRASTRUCTURE_POINTS`: a Python dict modelled
as an insertion-ordered association list. -/
abbrev Index : Type := List (Loc × PointData)

/-- Errors of the model.  `typeError`, `keyError` and `valueError` model the
Python exceptions of the same names; `outOfFuel` is the fuel artifact of the
embedding.  `emptyCandidateSetError` and `dataLoadError` are the error names
of the specification's taxonomy (§7); they are never produced by the code
translation and exist only so that claims about the taxonomy can be stated. -/
inductive PgErr where
  | typeError
  | keyError
  | valueError
  | outOfFuel
  | emptyCandidateSetError
  | dataLoadError
deriving DecidableEq

instance {E A : Type} [DecidableEq E] [DecidableEq A] : DecidableEq (Except E A) :=
  fun a b =>
    match a, b with
    | .ok x, .ok y =>
        if h : x = y then isTrue (by rw [h])
        else isFalse (by intro hc; cases hc; exact h rfl)
    | .error x, .error y =>
        if h : x = y then isTrue (by rw [h])
        else isFalse (by intro hc; cases hc; exact h rfl)
    | .ok _, .error _ => isFalse (by intro hc; cases hc)
    | .error _, .ok _ => isFalse (by intro hc; cases hc)

/-- Python dict assignment `d[k] = v`: overwrite in place if the key exists
(keeping its position in iteration order), else append at the end. -/
def insertPoint : Index → Loc → PointData → Index
  | [], k, v => [(k, v)]
  | kv :: rest, k, v =>
      if kv.1 = k then (k, v) :: rest else kv :: insertPoint rest k v

/-- Python dict lookup `d[k]` (as an `Option`; callers turn `none` into
`KeyError`). -/
def lookupPoint (idx : Index) (k : Loc) : Option PointData :=
  (idx.find? (fun kv => kv.1 = k)).map (fun kv => kv.2)

/-- Iterating a Python dict yields its keys in insertion order. -/
def keys (idx : Index) : List Loc :=
  idx.map (fun kv => kv.1)

/-- The inner loop of the submarine-catalog load: insert every endpoint of a
cable into the index (map.py lines 29-33). -/
def insertCableEndpoints (idx : Index) (c : Cable) : Index :=
  c.endpoints.foldl (fun i ep => insertPoint i ep (.submarine c)) idx

/-- Loading `INFRASTRUCTURE_POINTS` from the two (well-typed) catalogs:
ground exchanges first (map.py lines 15-21), then submarine cables, skipping
any cable with exactly one endpoint (map.py lines 23-33). -/
def loadIndex (ground : List (String × Loc)) (cables : List Cable) : Index :=
  let gidx := ground.foldl (fun i nl => insertPoint i nl.2 (.groundEx nl.1)) []
  cables.foldl
    (fun i c => if c.endpoints.length = 1 then i else insertCableEndpoints i c)
    gidx

/-- A raw submarine catalog record, in which the `"endpoints"` field may be
missing (accessing it then raises `KeyError`).  Only the `"endpoints"` field
is accessed during loading, so only it is optional here. -/
structure RawCable where
  name : String
  endpoints : Option (List Loc)
  geometry : List Loc
deriving DecidableEq

/-- The submarine loop of the load over raw records: a record without an
`"endpoints"` field fails with `KeyError` (`cable["endpoints"]`, line 26);
a single-endpoint record is skipped; otherwise all its endpoints are
inserted. -/
def loadRawAux : Index → List RawCable → Except PgErr Index
  | i, [] => .ok i
  | i, r :: rest =>
      match r.endpoints with
      | none => .error .keyError
      | some eps =>
          loadRawAux
            (if eps.length = 1 then i
             else insertCableEndpoints i ⟨r.name, eps, r.geometry⟩) rest

/-- The module-level load of `map.py` lines 12-33 over raw records: build the
ground index, then walk the submarine catalog. -/
def loadRaw (ground : List (String × Loc)) (raws : List RawCable) :
    Except PgErr Index :=
  loadRawAux (ground.foldl (fun i nl => insertPoint i nl.2 (.groundEx nl.1)) [])
    raws

/-- One drawable leg of the reconstructed path, in emission order:
a red ground polyline or a blue sliced submarine polyline. -/
inductive Segment where
  | ground (a b : Loc)
  | submarine (slice : List Loc) (name : String)
deriving DecidableEq

/-- The accumulator loop of `PathBuilder.find_closest_point`
(map.py lines 77-84): scan the candidates, keeping the first strictly closer
point. -/
noncomputable def fcpAux (target : Loc) :
    List Loc → Option (ℝ × Loc) → Option (ℝ × Loc)
  | [], best => best
  | pos :: rest, best =>
      let d := mdist pos target
      match best with
      | none => fcpAux target rest (some (d, pos))
      | some (bd, bp) =>
          if d < bd then fcpAux target rest (some (d, pos))
          else fcpAux target rest (some (bd, bp))

/-- `PathBuilder.find_closest_point` (map.py lines 75-86).  With an empty
candidate list the final `tuple(closest_point)` is `tuple(None)`, which
raises `TypeError`. -/
noncomputable def find_closest_point (target : Loc) (positions : List Loc) :
    Except PgErr Loc :=
  match fcpAux target positions none with
  | none => .error .typeError
  | some (_, p) => .ok p

/-- The total cost assigned to using cable `c` with entry distance `ed` and
exit endpoint `ep` (map.py line 102):
`entry + exit + 0.5 * math.dist((entry,), (exit,))`. -/
noncomputable def totalDistance (ed : ℝ) (ep : Loc) (endLoc : Loc) : ℝ :=
  ed + mdist ep endLoc + 0.5 * mdist1 ed (mdist ep endLoc)

/-- The inner minimum-tracking step of the second loop of
`find_closest_submarine_cable_between` (map.py lines 99-106). -/
noncomputable def cableMinStep (endLoc : Loc) (ec : ℝ × Cable)
    (acc : Option (ℝ × Cable)) (ep : Loc) : Option (ℝ × Cable) :=
  let total := totalDistance ec.1 ep endLoc
  match acc with
  | none => some (total, ec.2)
  | some (m, mc) => if total < m then some (total, ec.2) else some (m, mc)

/-- The first loop of `find_closest_submarine_cable_between`
(map.py lines 91-94): pair every cable of the catalog with the distance from
the start location to its nearest endpoint. -/
noncomputable def cableEntries (startLoc : Loc) :
    List Cable → Except PgErr (List (ℝ × Cable))
  | [] => .ok []
  | c :: rest => do
      let closest ← find_closest_point startLoc c.endpoints
      let es ← cableEntries startLoc rest
      .ok ((mdist startLoc closest, c) :: es)

/-- `PathBuilder.find_closest_submarine_cable_between` (map.py lines 88-108).
The first loop pairs every cable of the raw catalog `SUBMARINE_CABLES` with
its distance-to-entry; the second tracks the global minimum of
`totalDistance` over every cable and every endpoint.  Python's return value
`(min_path_distance, closest_cable)` is `(None, None)` exactly when the
catalog is empty, modelled as `none`. -/
noncomputable def find_closest_submarine_cable_between (cables : List Cable)
    (startLoc endLoc : Loc) : Except PgErr (Option (ℝ × Cable)) := do
  let entries ← cableEntries startLoc cables
  .ok (entries.foldl
    (fun acc ec => ec.2.endpoints.foldl (cableMinStep endLoc ec) acc)
    none)

/-- `PathBuilder.draw_submarine_cable` (map.py lines 116-123): slice the
cable's geometry between the geometry points nearest to the two landing
locations (indices reordered so the slice is monotone) and emit one blue
polyline.  `full_geometry.index(...)` raises `ValueError` when the element is
absent (impossible here, since `find_closest_point` returns a member). -/
noncomputable def draw_submarine_cable (startLoc endLoc : Loc)
    (full_geometry : List Loc) (name : String) : Except PgErr Segment := do
  let gsPt ← find_closest_point startLoc full_geometry
  let gePt ← find_closest_point endLoc full_geometry
  let gs ← match full_geometry.findIdx? (fun x => x = gsPt) with
           | some i => Except.ok i
           | none => Except.error PgErr.valueError
  let ge ← match full_geometry.findIdx? (fun x => x = gePt) with
           | some i => Except.ok i
           | none => Except.error PgErr.valueError
  let lo := if gs > ge then ge else gs
  let hi := if gs > ge then gs else ge
  .ok (.submarine ((full_geometry.drop lo).take (hi + 1 - lo)) name)

/-- `PathBuilder.break_path` (map.py lines 125-140), parametrised by the
recursive planner `recB` (`self.build_path_between`): snap the arithmetic
midpoint to the nearest infrastructure location; if the snap equals either
endpoint, fall back to `draw_ground_line(start, end, _no_break=True)` — which
unconditionally emits the direct ground segment — else recurse on both
halves. -/
noncomputable def break_path (idx : Index)
    (recB : Loc → Loc → Except PgErr (List Segment)) (startLoc endLoc : Loc) :
    Except PgErr (List Segment) := do
  let mid ← find_closest_point
    ((startLoc.1 + endLoc.1) / 2, (startLoc.2 + endLoc.2) / 2) (keys idx)
  if mid = startLoc ∨ mid = endLoc then
    -- draw_ground_line(start_loc, end_loc, _no_break=True): direct segment.
    .ok [.ground startLoc endLoc]
  else do
    let a ← recB startLoc mid
    let b ← recB mid endLoc
    .ok (a ++ b)

/-- `PathBuilder.draw_ground_line` (map.py lines 110-114): a ground segment
longer than `CABLE_BREAK_LEN` is broken (unless `_no_break` is set),
otherwise the direct red polyline is emitted. -/
noncomputable def draw_ground_line (idx : Index)
    (recB : Loc → Loc → Except PgErr (List Segment)) (startLoc endLoc : Loc)
    (noBreak : Bool) : Except PgErr (List Segment) :=
  if mdist startLoc endLoc > CABLE_BREAK_LEN ∧ noBreak = false then
    break_path idx recB startLoc endLoc
  else
    .ok [.ground startLoc endLoc]

/-- `PathBuilder._ground_to_ground` (map.py lines 160-172).  Python compares
`water_distance < ground_distance`; when the catalog is empty the search
yields `None` and the comparison `None < float` raises `TypeError`. -/
noncomputable def ground_to_ground (idx : Index) (cables : List Cable)
    (recB : Loc → Loc → Except PgErr (List Segment)) (startLoc endLoc : Loc) :
    Except PgErr (List Segment) := do
  let ground_distance := mdist startLoc endLoc
  let res ← find_closest_submarine_cable_between cables startLoc endLoc
  match res with
  | none => .error .typeError
  | some (water_distance, closest_cable) =>
    if water_distance < ground_distance then do
      let entry ← find_closest_point startLoc closest_cable.endpoints
      let exitP ← find_closest_point endLoc closest_cable.endpoints
      let s1 ← draw_ground_line idx recB startLoc entry false
      let s2 ← draw_submarine_cable entry exitP closest_cable.geometry
                 closest_cable.name
      let s3 ← recB exitP endLoc
      .ok (s1 ++ [s2] ++ s3)
    else
      draw_ground_line idx recB startLoc endLoc false

/-- `PathBuilder._submarine_to_ground` (map.py lines 174-180). -/
noncomputable def submarine_to_ground (idx : Index)
    (recB : Loc → Loc → Except PgErr (List Segment)) (startLoc : Loc)
    (startData : Cable) (endLoc : Loc) : Except PgErr (List Segment) := do
  let exitP ← find_closest_point endLoc startData.endpoints
  if exitP ≠ startLoc then do
    let s1 ← draw_submarine_cable startLoc exitP startData.geometry
               startData.name
    let s2 ← recB exitP endLoc
    .ok ([s1] ++ s2)
  else
    draw_ground_line idx recB startLoc endLoc false

/-- `PathBuilder._ground_to_submarine` (map.py lines 182-188). -/
noncomputable def ground_to_submarine (idx : Index)
    (recB : Loc → Loc → Except PgErr (List Segment)) (startLoc endLoc : Loc)
    (endData : Cable) : Except PgErr (List Segment) := do
  let entry ← find_closest_point startLoc endData.endpoints
  if entry = endLoc then
    draw_ground_line idx recB startLoc endLoc false
  else do
    let s1 ← recB startLoc entry
    let s2 ← draw_submarine_cable entry endLoc endData.geometry endData.name
    .ok (s1 ++ [s2])

/-- `PathBuilder._submarine_to_submarine` (map.py lines 190-206).  The
same-cable test `end_loc in start_data["endpoints"]` (line 192) compares the
tuple `end_loc` against the raw JSON *lists* stored in `endpoints`; in Python
a tuple never equals a list, so the test is always `False` and the fast path
of line 193 is dead code.  The embedding therefore proceeds directly with the
"different cable" logic of lines 195-206, which is the code actually
executed — also on pairs lying on the same cable. -/
noncomputable def submarine_to_submarine (idx : Index)
    (recB : Loc → Loc → Except PgErr (List Segment)) (startLoc : Loc)
    (startData : Cable) (endLoc : Loc) (endData : Cable) :
    Except PgErr (List Segment) := do
  let closest ← find_closest_point endLoc startData.endpoints
  if closest = startLoc then do
    let entry ← find_closest_point startLoc endData.endpoints
    let s1 ← draw_ground_line idx recB startLoc entry false
    if entry ≠ endLoc then do
      let s2 ← draw_submarine_cable entry endLoc endData.geometry
                 endData.name
      .ok (s1 ++ [s2])
    else
      .ok s1
  else do
    let s1 ← draw_submarine_cable startLoc closest startData.geometry
               startData.name
    let s2 ← recB closest endLoc
    .ok ([s1] ++ s2)

/-- One dispatch step of `PathBuilder.build_path_between`
(map.py lines 142-158): look both endpoints up in the index (`KeyError` if
absent) and dispatch on the pair of type tags; the four `if`s of the source
are mutually exclusive, so they amount to this four-way match. -/
noncomputable def build_path_step (idx : Index) (cables : List Cable)
    (recB : Loc → Loc → Except PgErr (List Segment)) (startLoc endLoc : Loc) :
    Except PgErr (List Segment) :=
  match lookupPoint idx startLoc, lookupPoint idx endLoc with
  | some sd, some ed =>
    match sd, ed with
    | .groundEx _, .groundEx _ => ground_to_ground idx cables recB startLoc endLoc
    | .submarine sc, .submarine ec =>
        submarine_to_submarine idx recB startLoc sc endLoc ec
    | .groundEx _, .submarine ec => ground_to_submarine idx recB startLoc endLoc ec
    | .submarine sc, .groundEx _ => submarine_to_ground idx recB startLoc sc endLoc
  | _, _ => .error .keyError

/-- `PathBuilder.build_path_between` with an explicit fuel parameter; the
recursion of the source is reached through `build_path_step`'s `recB`. -/
noncomputable def build_path_between (idx : Index) (cables : List Cable) :
    ℕ → Loc → Loc → Except PgErr (List Segment)
  | 0, _, _ => .error .outOfFuel
  | n + 1, s, e => build_path_step idx cables (build_path_between idx cables n) s e

/-! ### Basic facts about the distance function -/

theorem sqDist_nonneg (a b : Loc) : 0 ≤ sqDist a b := by
  have h1 : (0:ℚ) ≤ (a.1 - b.1) ^ 2 := sq_nonneg _
  have h2 : (0:ℚ) ≤ (a.2 - b.2) ^ 2 := sq_nonneg _
  unfold sqDist; linarith

theorem sqDist_comm (a b : Loc) : sqDist a b = sqDist b a := by
  unfold sqDist; ring

theorem mdist_nonneg (a b : Loc) : 0 ≤ mdist a b := Real.sqrt_nonneg _

theorem mdist_comm (a b : Loc) : mdist a b = mdist b a := by
  unfold mdist; rw [sqDist_comm]

theorem mdist_lt_mdist_iff {a b c d : Loc} :
    mdist a b < mdist c d ↔ sqDist a b < sqDist c d := by
  unfold mdist
  rw [Real.sqrt_lt_sqrt_iff (by exact_mod_cast sqDist_nonneg a b)]
  exact_mod_cast Iff.rfl

theorem mdist_le_mdist_iff {a b c d : Loc} :
    mdist a b ≤ mdist c d ↔ sqDist a b ≤ sqDist c d := by
  unfold mdist
  rw [Real.sqrt_le_sqrt_iff (by exact_mod_cast sqDist_nonneg c d)]
  exact_mod_cast Iff.rfl

theorem mdist_self (a : Loc) : mdist a a = 0 := by
  unfold mdist sqDist
  norm_num

/-- Evaluation of `mdist` for points sharing the second coordinate. -/
theorem mdist_horizontal (x y c : ℚ) :
    mdist (x, c) (y, c) = |((x : ℝ) - (y : ℝ))| := by
  unfold mdist sqDist
  push_cast
  rw [show ((x:ℝ) - y) ^ 2 + ((c:ℝ) - c) ^ 2 = ((x:ℝ) - y) ^ 2 by ring]
  exact Real.sqrt_sq_eq_abs _

theorem mdist1_eq_abs (x y : ℝ) : mdist1 x y = |x - y| := Real.sqrt_sq_eq_abs _

/-- The embedding of a location into the Euclidean plane. -/
noncomputable def emb (p : Loc) : EuclideanSpace ℝ (Fin 2) :=
  ![(p.1 : ℝ), (p.2 : ℝ)]

theorem mdist_eq_dist (a b : Loc) : mdist a b = dist (emb a) (emb b) := by
  rw [EuclideanSpace.dist_eq]
  unfold mdist sqDist emb
  push_cast
  congr 1
  rw [Fin.sum_univ_two]
  simp [Real.dist_eq, sq_abs]

theorem mdist_triangle (a b c : Loc) : mdist a c ≤ mdist a b + mdist b c := by
  rw [mdist_eq_dist, mdist_eq_dist, mdist_eq_dist]
  exact dist_triangle _ _ _

/-! ### Specification of `find_closest_point` -/

theorem fcpAux_cons_none (t pos : Loc) (rest : List Loc) :
    fcpAux t (pos :: rest) none = fcpAux t rest (some (mdist pos t, pos)) := rfl

theorem fcpAux_cons_lt {t pos : Loc} {bd : ℝ} {bp : Loc} (rest : List Loc)
    (h : mdist pos t < bd) :
    fcpAux t (pos :: rest) (some (bd, bp)) =
      fcpAux t rest (some (mdist pos t, pos)) := by
  simp only [fcpAux]
  rw [if_pos h]

theorem fcpAux_cons_ge {t pos : Loc} {bd : ℝ} {bp : Loc} (rest : List Loc)
    (h : ¬ mdist pos t < bd) :
    fcpAux t (pos :: rest) (some (bd, bp)) = fcpAux t rest (some (bd, bp)) := by
  simp only [fcpAux]
  rw [if_neg h]

/-- Invariant of the scanning loop: the final accumulator is either the
initial one (no candidate strictly improved on it) or the first candidate
attaining the overall minimum. -/
theorem fcpAux_spec (t : Loc) : ∀ (l : List Loc) (bd : ℝ) (bp : Loc),
    ∃ d p, fcpAux t l (some (bd, bp)) = some (d, p) ∧
      ((d = bd ∧ p = bp ∧ ∀ q ∈ l, bd ≤ mdist q t) ∨
       (p ∈ l ∧ d = mdist p t ∧ d < bd ∧ (∀ q ∈ l, d ≤ mdist q t) ∧
        ∃ l1 l2, l = l1 ++ p :: l2 ∧ ∀ q ∈ l1, d < mdist q t)) := by
  intro l
  induction l with
  | nil =>
      intro bd bp
      exact ⟨bd, bp, rfl, Or.inl ⟨rfl, rfl, by simp⟩⟩
  | cons x xs ih =>
      intro bd bp
      by_cases hx : mdist x t < bd
      · obtain ⟨d, p, heq, hspec⟩ := ih (mdist x t) x
        refine ⟨d, p, by rw [fcpAux_cons_lt xs hx]; exact heq, Or.inr ?_⟩
        rcases hspec with ⟨hd, hp, hmin⟩ | ⟨hmem, hd, hlt, hmin, l1, l2, hsplit, hpre⟩
        · subst hd; subst hp
          refine ⟨List.mem_cons_self _ _, rfl, hx, ?_, [], xs, rfl, by simp⟩
          intro q hq
          rcases List.mem_cons.mp hq with h | h
          · subst h; exact le_refl _
          · exact hmin q h
        · refine ⟨List.mem_cons_of_mem _ hmem, hd, lt_trans hlt hx, ?_,
            x :: l1, l2, by rw [hsplit]; rfl, ?_⟩
          · intro q hq
            rcases List.mem_cons.mp hq with h | h
            · subst h; exact le_of_lt hlt
            · exact hmin q h
          · intro q hq
            rcases List.mem_cons.mp hq with h | h
            · subst h; exact hlt
            · exact hpre q h
      · obtain ⟨d, p, heq, hspec⟩ := ih bd bp
        refine ⟨d, p, by rw [fcpAux_cons_ge xs hx]; exact heq, ?_⟩
        rcases hspec with ⟨hd, hp, hmin⟩ | ⟨hmem, hd, hlt, hmin, l1, l2, hsplit, hpre⟩
        · refine Or.inl ⟨hd, hp, ?_⟩
          intro q hq
          rcases List.mem_cons.mp hq with h | h
          · subst h; exact not_lt.mp hx
          · exact hmin q h
        · refine Or.inr ⟨List.mem_cons_of_mem _ hmem, hd, hlt, ?_,
            x :: l1, l2, by rw [hsplit]; rfl, ?_⟩
          · intro q hq
            rcases List.mem_cons.mp hq with h | h
            · subst h; exact le_of_lt (lt_of_lt_of_le hlt (not_lt.mp hx))
            · exact hmin q h
          · intro q hq
            rcases List.mem_cons.mp hq with h | h
            · subst h; exact lt_of_lt_of_le hlt (not_lt.mp hx)
            · exact hpre q h

/-- Specification of `find_closest_point` on a non-empty candidate list:
it succeeds with a member whose distance to the target is minimal, and which
is the first candidate attaining that minimum. -/
theorem fcp_spec (t : Loc) (l : List Loc) (h : l ≠ []) :
    ∃ p, find_closest_point t l = .ok p ∧ p ∈ l ∧
      (∀ q ∈ l, mdist p t ≤ mdist q t) ∧
      ∃ l1 l2, l = l1 ++ p :: l2 ∧ ∀ q ∈ l1, mdist p t < mdist q t := by
  cases l with
  | nil => exact absurd rfl h
  | cons x xs =>
    obtain ⟨d, p, heq, hspec⟩ := fcpAux_spec t xs (mdist x t) x
    have hres : find_closest_point t (x :: xs) = .ok p := by
      unfold find_closest_point
      rw [fcpAux_cons_none, heq]
    rcases hspec with ⟨hd, hp, hmin⟩ | ⟨hmem, hd, hlt, hmin, l1, l2, hsplit, hpre⟩
    · rw [hp] at hres
      refine ⟨x, hres, List.mem_cons_self _ _, ?_, [], xs, rfl, by simp⟩
      intro q hq
      rcases List.mem_cons.mp hq with hh | hh
      · rw [hh]
      · exact hmin q hh
    · subst hd
      refine ⟨p, hres, List.mem_cons_of_mem _ hmem, ?_,
        x :: l1, l2, by rw [hsplit]; rfl, ?_⟩
      · intro q hq
        rcases List.mem_cons.mp hq with hh | hh
        · subst hh; exact le_of_lt hlt
        · exact hmin q hh
      · intro q hq
        rcases List.mem_cons.mp hq with hh | hh
        · subst hh; exact hlt
        · exact hpre q hh

theorem fcp_nil (t : Loc) : find_closest_point t [] = .error .typeError := rfl

theorem fcp_ok_of_ne_nil (t : Loc) {l : List Loc} (h : l ≠ []) :
    ∃ p, find_closest_point t l = .ok p ∧ p ∈ l ∧
      ∀ q ∈ l, mdist p t ≤ mdist q t := by
  obtain ⟨p, h1, h2, h3, _⟩ := fcp_spec t l h
  exact ⟨p, h1, h2, h3⟩

theorem fcp_ok_mem {t : Loc} {l : List Loc} {p : Loc}
    (h : find_closest_point t l = .ok p) : p ∈ l := by
  cases l with
  | nil => rw [fcp_nil] at h; cases h
  | cons x xs =>
      obtain ⟨p', h1, h2, _⟩ := fcp_ok_of_ne_nil t (List.cons_ne_nil x xs)
      rw [h1] at h
      cases h
      exact h2

theorem fcp_ok_min {t : Loc} {l : List Loc} {p : Loc}
    (h : find_closest_point t l = .ok p) : ∀ q ∈ l, mdist p t ≤ mdist q t := by
  cases l with
  | nil => rw [fcp_nil] at h; cases h
  | cons x xs =>
      obtain ⟨p', h1, _, h3⟩ := fcp_ok_of_ne_nil t (List.cons_ne_nil x xs)
      rw [h1] at h
      cases h
      exact h3

/-! ### The infrastructure index: lookup, keys, and the last-writer-wins
characterisation of stored submarine cables -/

/-- Cable `c` writes the index entry at `k` during loading: `k` is one of its
endpoints and the cable is not skipped by the single-endpoint filter. -/
def Claims (c : Cable) (k : Loc) : Prop :=
  k ∈ c.endpoints ∧ c.endpoints.length ≠ 1

instance (c : Cable) (k : Loc) : Decidable (Claims c k) := by
  unfold Claims; infer_instance

/-- Index (counting from the end of the catalog) of the last cable whose
load-time write hits `k`; equals `cables.length` when no cable writes `k`. -/
def lastPos (cables : List Cable) (k : Loc) : ℕ :=
  cables.reverse.findIdx (fun c => decide (Claims c k))

theorem lookup_insertPoint (idx : Index) (k : Loc) (v : PointData) (k' : Loc) :
    lookupPoint (insertPoint idx k v) k' =
      if k' = k then some v else lookupPoint idx k' := by
  induction idx with
  | nil =>
      by_cases h : k' = k
      · simp [insertPoint, lookupPoint, h]
      · simp [insertPoint, lookupPoint, h, Ne.symm h]
  | cons kv rest ih =>
      by_cases hk : kv.1 = k
      · by_cases h : k' = k
        · simp [insertPoint, lookupPoint, hk, h]
        · have hne : ¬ kv.1 = k' := by rw [hk]; exact fun hc => h hc.symm
          simp [insertPoint, lookupPoint, hk, h, Ne.symm h, hne]
      · by_cases h : kv.1 = k'
        · simp only [insertPoint, if_neg hk]
          have hx : ¬ k' = k := by rw [← h]; exact hk
          simp [lookupPoint, h, hx]
        · simp only [insertPoint, if_neg hk]
          unfold lookupPoint
          rw [List.find?_cons_of_neg _ (by simpa using h),
              List.find?_cons_of_neg _ (by simpa using h)]
          exact ih

theorem mem_keys_iff_lookup (idx : Index) (k : Loc) :
    k ∈ keys idx ↔ ∃ v, lookupPoint idx k = some v := by
  induction idx with
  | nil => simp [keys, lookupPoint]
  | cons kv rest ih =>
      by_cases h : kv.1 = k
      · simp [keys, lookupPoint, h]
      · unfold keys lookupPoint
        rw [List.find?_cons_of_neg _ (by simpa using h)]
        simp only [List.map_cons, List.mem_cons]
        constructor
        · intro hc
          rcases hc with hc | hc
          · exact absurd hc.symm h
          · exact ih.mp hc
        · intro hc
          exact Or.inr (ih.mpr hc)

theorem keys_insertPoint_nodup (idx : Index) (k : Loc) (v : PointData)
    (h : (keys idx).Nodup) : (keys (insertPoint idx k v)).Nodup := by
  induction idx with
  | nil => simp [insertPoint, keys]
  | cons kv rest ih =>
      rw [keys, List.map_cons] at h
      obtain ⟨h1, h2⟩ := List.nodup_cons.mp h
      by_cases hk : kv.1 = k
      · simp only [insertPoint, if_pos hk, keys, List.map_cons]
        refine List.nodup_cons.mpr ⟨?_, h2⟩
        rw [← hk]
        exact h1
      · simp only [insertPoint, if_neg hk, keys, List.map_cons]
        refine List.nodup_cons.mpr ⟨?_, ih h2⟩
        intro hc
        have := (mem_keys_iff_lookup (insertPoint rest k v) kv.1).mp hc
        rw [lookup_insertPoint] at this
        rw [if_neg hk] at this
        exact h1 ((mem_keys_iff_lookup rest kv.1).mpr this)

theorem lookup_insertCableEndpoints (idx : Index) (c : Cable) (k : Loc) :
    lookupPoint (insertCableEndpoints idx c) k =
      if k ∈ c.endpoints then some (.submarine c) else lookupPoint idx k := by
  unfold insertCableEndpoints
  suffices H : ∀ (eps : List Loc) (i : Index),
      lookupPoint (eps.foldl (fun i ep => insertPoint i ep (.submarine c)) i) k =
        if k ∈ eps then some (.submarine c) else lookupPoint i k from H c.endpoints idx
  intro eps
  induction eps with
  | nil => intro i; simp
  | cons ep rest ih =>
      intro i
      rw [List.foldl_cons, ih]
      by_cases h1 : k ∈ rest
      · simp [h1]
      · rw [if_neg h1, lookup_insertPoint]
        by_cases h2 : k = ep
        · simp [h2]
        · rw [if_neg h2, if_neg (by
            intro hc
            rcases List.mem_cons.mp hc with hc | hc
            · exact h2 hc
            · exact h1 hc)]

theorem keys_insertCableEndpoints_nodup (idx : Index) (c : Cable)
    (h : (keys idx).Nodup) : (keys (insertCableEndpoints idx c)).Nodup := by
  unfold insertCableEndpoints
  suffices H : ∀ (eps : List Loc) (i : Index), (keys i).Nodup →
      (keys (eps.foldl (fun i ep => insertPoint i ep (.submarine c)) i)).Nodup from
    H c.endpoints idx h
  intro eps
  induction eps with
  | nil => intro i hi; exact hi
  | cons ep rest ih =>
      intro i hi
      exact ih _ (keys_insertPoint_nodup i ep _ hi)

/-- Unfolding of the load over a catalog extended by one more cable: the new
cable's writes win at every endpoint it claims. -/
theorem lookup_loadIndex_concat (g : List (String × Loc)) (cbs : List Cable)
    (c : Cable) (k : Loc) :
    lookupPoint (loadIndex g (cbs ++ [c])) k =
      if Claims c k then some (.submarine c)
      else lookupPoint (loadIndex g cbs) k := by
  unfold loadIndex
  rw [List.foldl_append, List.foldl_cons, List.foldl_nil]
  by_cases hlen : c.endpoints.length = 1
  · rw [if_pos hlen, if_neg (by intro hc; exact hc.2 hlen)]
  · rw [if_neg hlen, lookup_insertCableEndpoints]
    by_cases hmem : k ∈ c.endpoints
    · rw [if_pos hmem, if_pos ⟨hmem, hlen⟩]
    · rw [if_neg hmem, if_neg (by intro hc; exact hmem hc.1)]

/-- Every entry of the pure-ground part of the index is a ground exchange. -/
theorem lookup_groundPart (g : List (String × Loc)) (k : Loc) (v : PointData)
    (h : lookupPoint (loadIndex g []) k = some v) : ∃ n, v = .groundEx n := by
  unfold loadIndex at h
  rw [List.foldl_nil] at h
  suffices H : ∀ (gl : List (String × Loc)) (i : Index),
      (∀ k' v', lookupPoint i k' = some v' → ∃ n, v' = .groundEx n) →
      ∀ k' v', lookupPoint (gl.foldl
          (fun i nl => insertPoint i nl.2 (.groundEx nl.1)) i) k' = some v' →
        ∃ n, v' = .groundEx n by
    refine H g [] ?_ k v h
    intro k' v' hc
    simp [lookupPoint] at hc
  intro gl
  induction gl with
  | nil => intro i hi; exact hi
  | cons nl rest ih =>
      intro i hi
      rw [List.foldl_cons]
      refine ih _ ?_
      intro k' v' hl
      rw [lookup_insertPoint] at hl
      by_cases hk : k' = nl.2
      · rw [if_pos hk] at hl
        exact ⟨nl.1, (Option.some_injective _ hl).symm⟩
      · rw [if_neg hk] at hl
        exact hi k' v' hl

theorem keys_loadIndex_nodup (g : List (String × Loc)) (cbs : List Cable) :
    (keys (loadIndex g cbs)).Nodup := by
  unfold loadIndex
  have hg : ∀ (gl : List (String × Loc)) (i : Index), (keys i).Nodup →
      (keys (gl.foldl (fun i nl => insertPoint i nl.2 (.groundEx nl.1)) i)).Nodup := by
    intro gl
    induction gl with
    | nil => intro i hi; exact hi
    | cons nl rest ih =>
        intro i hi
        exact ih _ (keys_insertPoint_nodup i nl.2 _ hi)
  have hbase := hg g [] (by simp [keys])
  revert hbase
  generalize (g.foldl (fun i nl => insertPoint i nl.2 (.groundEx nl.1)) []) = gidx
  intro hbase
  induction cbs using List.reverseRecOn with
  | nil => simpa using hbase
  | append_singleton cbs c ih =>
      rw [List.foldl_append, List.foldl_cons, List.foldl_nil]
      by_cases hlen : c.endpoints.length = 1
      · rw [if_pos hlen]; exact ih
      · rw [if_neg hlen]
        exact keys_insertCableEndpoints_nodup _ c ih

theorem findIdx_le_of_getElem {α : Type} {p : α → Bool} {l : List α} {i : ℕ}
    (h : i < l.length) (hp : p l[i] = true) : l.findIdx p ≤ i := by
  induction l generalizing i with
  | nil => simp at h
  | cons a rest ih =>
      rw [List.findIdx_cons]
      cases hpa : p a with
      | true => simp
      | false =>
          rw [Bool.cond_false]
          cases i with
          | zero =>
              rw [List.getElem_cons_zero, hpa] at hp
              cases hp
          | succ j =>
              rw [List.getElem_cons_succ] at hp
              have := ih (show j < rest.length by simpa using h) hp
              omega

/-- A stored submarine association comes from a cable of the catalog that
claims the key (in particular, it has the key among its endpoints and is not
a single-endpoint cable). -/
theorem lookup_submarine_valid (g : List (String × Loc)) (cbs : List Cable)
    (k : Loc) (c : Cable)
    (h : lookupPoint (loadIndex g cbs) k = some (.submarine c)) :
    c ∈ cbs ∧ Claims c k := by
  induction cbs using List.reverseRecOn with
  | nil =>
      obtain ⟨n, hn⟩ := lookup_groundPart g k _ h
      cases hn
  | append_singleton cbs c0 ih =>
      rw [lookup_loadIndex_concat] at h
      by_cases hc : Claims c0 k
      · rw [if_pos hc] at h
        have hceq : c0 = c := by
          have h2 := Option.some_injective _ h
          cases h2
          rfl
        subst hceq
        exact ⟨by simp, hc⟩
      · rw [if_neg hc] at h
        obtain ⟨h1, h2⟩ := ih h
        exact ⟨by simp [h1], h2⟩

/-- If some cable of the catalog claims `k`, the loaded index stores a
submarine association at `k` (ground entries at the same key are
overwritten). -/
theorem claimed_lookup_submarine (g : List (String × Loc)) (cbs : List Cable)
    (k : Loc) (c : Cable) (hc : c ∈ cbs) (hcl : Claims c k) :
    ∃ c', lookupPoint (loadIndex g cbs) k = some (.submarine c') := by
  induction cbs using List.reverseRecOn with
  | nil => simp at hc
  | append_singleton cbs c0 ih =>
      rw [lookup_loadIndex_concat]
      by_cases h0 : Claims c0 k
      · rw [if_pos h0]; exact ⟨c0, rfl⟩
      · rw [if_neg h0]
        rcases List.mem_append.mp hc with hmem | hmem
        · exact ih hmem
        · simp only [List.mem_singleton] at hmem
          subst hmem
          exact absurd hcl h0

theorem lastPos_concat (cbs : List Cable) (c0 : Cable) (k : Loc) :
    lastPos (cbs ++ [c0]) k =
      if Claims c0 k then 0 else lastPos cbs k + 1 := by
  unfold lastPos
  rw [List.reverse_append, List.reverse_singleton, List.singleton_append,
      List.findIdx_cons]
  by_cases h : Claims c0 k
  · rw [decide_eq_true h, Bool.cond_true, if_pos h]
  · rw [decide_eq_false h, Bool.cond_false, if_neg h]

/-- The stored submarine association at `k` is the cable at reverse position
`lastPos cbs k` of the catalog: the last writer wins. -/
theorem lookup_submarine_lastPos (g : List (String × Loc)) (cbs : List Cable)
    (k : Loc) (c : Cable)
    (h : lookupPoint (loadIndex g cbs) k = some (.submarine c)) :
    cbs.reverse[lastPos cbs k]? = some c ∧ lastPos cbs k < cbs.length := by
  induction cbs using List.reverseRecOn with
  | nil =>
      obtain ⟨n, hn⟩ := lookup_groundPart g k _ h
      cases hn
  | append_singleton cbs c0 ih =>
      rw [lookup_loadIndex_concat] at h
      rw [lastPos_concat, List.reverse_append, List.reverse_singleton,
          List.singleton_append]
      by_cases hc : Claims c0 k
      · rw [if_pos hc] at h
        have hceq : c0 = c := by
          have h2 := Option.some_injective _ h
          cases h2
          rfl
        subst hceq
        rw [if_pos hc]
        exact ⟨by simp, by simp⟩
      · rw [if_neg hc] at h
        obtain ⟨h1, h2⟩ := ih h
        rw [if_neg hc]
        refine ⟨?_, by simp; omega⟩
        rw [List.getElem?_cons_succ]
        exact h1

/-- Monotonicity of the last-writer position along cable endpoints: if the
index stores cable `c` at `k` and `c` claims `k'`, then the last writer of
`k'` is not earlier in the catalog than that of `k`; at equality the stored
cable at `k'` is `c` itself. -/
theorem lastPos_mono (g : List (String × Loc)) (cbs : List Cable)
    (k k' : Loc) (c : Cable)
    (h : lookupPoint (loadIndex g cbs) k = some (.submarine c))
    (hcl : Claims c k') :
    lastPos cbs k' ≤ lastPos cbs k ∧
      (lastPos cbs k' = lastPos cbs k →
        lookupPoint (loadIndex g cbs) k' = some (.submarine c)) := by
  obtain ⟨hget, hlt⟩ := lookup_submarine_lastPos g cbs k c h
  obtain ⟨hlen, hgetE⟩ := List.getElem?_eq_some.mp hget
  have hle : lastPos cbs k' ≤ lastPos cbs k := by
    refine findIdx_le_of_getElem hlen ?_
    rw [hgetE]
    exact decide_eq_true hcl
  refine ⟨hle, ?_⟩
  intro heq
  have hcmem : c ∈ cbs := (lookup_submarine_valid g cbs k c h).1
  obtain ⟨c', hc'⟩ := claimed_lookup_submarine g cbs k' c hcmem hcl
  obtain ⟨hget', hlt'⟩ := lookup_submarine_lastPos g cbs k' c' hc'
  rw [heq, hget] at hget'
  have : c = c' := Option.some_injective _ hget'
  rw [hc', ← this]

/-- An association list with nodup keys is functional. -/
theorem assoc_unique {idx : Index} (h : (keys idx).Nodup) (k : Loc)
    (v w : PointData) (hv : (k, v) ∈ idx) (hw : (k, w) ∈ idx) : v = w := by
  induction idx with
  | nil => simp at hv
  | cons kv rest ih =>
      rw [keys, List.map_cons, List.nodup_cons] at h
      obtain ⟨h1, h2⟩ := h
      rcases List.mem_cons.mp hv with hv1 | hv1 <;>
        rcases List.mem_cons.mp hw with hw1 | hw1
      · rw [← hv1] at hw1
        exact congrArg Prod.snd hw1.symm
      · exfalso
        refine h1 ?_
        rw [← hv1]
        exact List.mem_map_of_mem (fun kv => kv.1) hw1
      · exfalso
        refine h1 ?_
        rw [← hw1]
        exact List.mem_map_of_mem (fun kv => kv.1) hv1
      · exact ih h2 hv1 hw1

/-! ### Specification of `find_closest_submarine_cable_between` -/

theorem mdist1_nonneg (x y : ℝ) : 0 ≤ mdist1 x y := Real.sqrt_nonneg _

theorem exit_le_totalDistance {ed : ℝ} (hed : 0 ≤ ed) (ep e : Loc) :
    mdist ep e ≤ totalDistance ed ep e := by
  unfold totalDistance
  have h1 := mdist1_nonneg ed (mdist ep e)
  linarith

theorem entry_le_totalDistance (ed : ℝ) (ep e : Loc) :
    ed ≤ totalDistance ed ep e := by
  unfold totalDistance
  have h1 := mdist1_nonneg ed (mdist ep e)
  have h2 := mdist_nonneg ep e
  linarith

theorem totalDistance_nonneg {ed : ℝ} (hed : 0 ≤ ed) (ep e : Loc) :
    0 ≤ totalDistance ed ep e :=
  le_trans hed (entry_le_totalDistance ed ep e)

theorem cableMinStep_none (e : Loc) (ec : ℝ × Cable) (ep : Loc) :
    cableMinStep e ec none ep = some (totalDistance ec.1 ep e, ec.2) := rfl

theorem cableMinStep_some_lt {e : Loc} {ec : ℝ × Cable} {ep : Loc}
    {a : ℝ} {ac : Cable} (h : totalDistance ec.1 ep e < a) :
    cableMinStep e ec (some (a, ac)) ep =
      some (totalDistance ec.1 ep e, ec.2) := by
  simp only [cableMinStep]
  rw [if_pos h]

theorem cableMinStep_some_ge {e : Loc} {ec : ℝ × Cable} {ep : Loc}
    {a : ℝ} {ac : Cable} (h : ¬ totalDistance ec.1 ep e < a) :
    cableMinStep e ec (some (a, ac)) ep = some (a, ac) := by
  simp only [cableMinStep]
  rw [if_neg h]

theorem somePair_inj {A B : Type} {x y : A} {u v : B}
    (h : (some (x, u) : Option (A × B)) = some (y, v)) : y = x ∧ v = u := by
  have h2 := Option.some_injective _ h
  exact ⟨(congrArg Prod.fst h2).symm, (congrArg Prod.snd h2).symm⟩

/-- Invariant of the inner minimum-tracking fold over one cable's
endpoints. -/
theorem inner_foldl_spec (e : Loc) (ec : ℝ × Cable) :
    ∀ (eps : List Loc) (acc : Option (ℝ × Cable)),
      (eps.foldl (cableMinStep e ec) acc = none ↔ (acc = none ∧ eps = [])) ∧
      (∀ m mc, eps.foldl (cableMinStep e ec) acc = some (m, mc) →
        (acc = some (m, mc) ∨
          (mc = ec.2 ∧ ∃ ep ∈ eps, m = totalDistance ec.1 ep e)) ∧
        (∀ ep ∈ eps, m ≤ totalDistance ec.1 ep e) ∧
        (∀ a ac, acc = some (a, ac) → m ≤ a)) := by
  intro eps
  induction eps with
  | nil =>
      intro acc
      refine ⟨by simp, ?_⟩
      intro m mc h
      rw [List.foldl_nil] at h
      refine ⟨Or.inl h, by simp, ?_⟩
      intro a ac ha
      rw [h] at ha
      obtain ⟨h1, _⟩ := somePair_inj ha
      rw [h1]
  | cons ep rest ih =>
      intro acc
      rw [List.foldl_cons]
      have hstep : ∀ acc' : Option (ℝ × Cable),
          cableMinStep e ec acc' ep = none → False := by
        intro acc' hc
        match acc' with
        | none => rw [cableMinStep_none] at hc; cases hc
        | some (a, ac) =>
            by_cases hlt : totalDistance ec.1 ep e < a
            · rw [cableMinStep_some_lt hlt] at hc; cases hc
            · rw [cableMinStep_some_ge hlt] at hc; cases hc
      constructor
      · constructor
        · intro h
          obtain ⟨h1, _⟩ := (ih (cableMinStep e ec acc ep)).1.mp h
          exact absurd h1 (fun hc => hstep acc hc)
        · intro hx
          cases hx.2
      · intro m mc h
        obtain ⟨hA, hB, hC⟩ := ((ih (cableMinStep e ec acc ep)).2 m mc) h
        match hacc : acc with
        | none =>
            rw [cableMinStep_none] at hA hC
            refine ⟨?_, ?_, by intro a ac hc; cases hc⟩
            · rcases hA with hA | hA
              · obtain ⟨h1, h2⟩ := somePair_inj hA
                exact Or.inr ⟨h2, ep, List.mem_cons_self _ _, h1⟩
              · obtain ⟨h1, ep', hmem, h2⟩ := hA
                exact Or.inr ⟨h1, ep', List.mem_cons_of_mem _ hmem, h2⟩
            · intro q hq
              rcases List.mem_cons.mp hq with hq1 | hq1
              · rw [hq1]
                exact hC _ _ rfl
              · exact hB q hq1
        | some (a, ac) =>
            by_cases hlt : totalDistance ec.1 ep e < a
            · rw [cableMinStep_some_lt hlt] at hA hC
              refine ⟨?_, ?_, ?_⟩
              · rcases hA with hA | hA
                · obtain ⟨h1, h2⟩ := somePair_inj hA
                  exact Or.inr ⟨h2, ep, List.mem_cons_self _ _, h1⟩
                · obtain ⟨h1, ep', hmem, h2⟩ := hA
                  exact Or.inr ⟨h1, ep', List.mem_cons_of_mem _ hmem, h2⟩
              · intro q hq
                rcases List.mem_cons.mp hq with hq1 | hq1
                · rw [hq1]
                  exact hC _ _ rfl
                · exact hB q hq1
              · intro a' ac' ha'
                obtain ⟨h1, _⟩ := somePair_inj ha'
                rw [h1]
                exact le_of_lt (lt_of_le_of_lt (hC _ _ rfl) hlt)
            · rw [cableMinStep_some_ge hlt] at hA hC
              refine ⟨?_, ?_, ?_⟩
              · rcases hA with hA | hA
                · exact Or.inl hA
                · obtain ⟨h1, ep', hmem, h2⟩ := hA
                  exact Or.inr ⟨h1, ep', List.mem_cons_of_mem _ hmem, h2⟩
              · intro q hq
                rcases List.mem_cons.mp hq with hq1 | hq1
                · rw [hq1]
                  exact le_trans (hC _ _ rfl) (not_lt.mp hlt)
                · exact hB q hq1
              · intro a' ac' ha'
                obtain ⟨h1, _⟩ := somePair_inj ha'
                rw [h1]
                exact hC _ _ rfl

/-- Relation between a catalog cable and its record in the first loop's
`cables_distance_to_entry` list. -/
def EntryRel (s : Loc) (c : Cable) (ec : ℝ × Cable) : Prop :=
  ec.2 = c ∧ ∃ p, find_closest_point s c.endpoints = .ok p ∧ ec.1 = mdist s p

theorem cableEntries_spec (s : Loc) (cables : List Cable)
    (hep : ∀ c ∈ cables, c.endpoints ≠ []) :
    ∃ ents, cableEntries s cables = .ok ents ∧
      List.Forall₂ (EntryRel s) cables ents := by
  induction cables with
  | nil => exact ⟨[], rfl, List.Forall₂.nil⟩
  | cons c rest ih =>
      obtain ⟨p, hp, _, _⟩ := fcp_spec s c.endpoints (hep c (List.mem_cons_self _ _))
      obtain ⟨ents, hents, hrel⟩ := ih (fun c' hc' => hep c' (List.mem_cons_of_mem _ hc'))
      refine ⟨(mdist s p, c) :: ents, ?_, ?_⟩
      · show (do
          let closest ← find_closest_point s c.endpoints
          let es ← cableEntries s rest
          Except.ok ((mdist s closest, c) :: es)) = _
        rw [hp, hents]
        rfl
      · exact List.Forall₂.cons ⟨rfl, p, hp, rfl⟩ hrel

/-- Invariant of the outer fold of the second loop: the tracked minimum is
attained by some cable/endpoint pair and bounds every cable/endpoint pair. -/
theorem outer_foldl_spec (s e : Loc) :
    ∀ (cs : List Cable) (ents : List (ℝ × Cable)),
      List.Forall₂ (EntryRel s) cs ents →
      ∀ acc : Option (ℝ × Cable),
      (ents.foldl (fun acc ec => ec.2.endpoints.foldl (cableMinStep e ec) acc)
          acc = none ↔ (acc = none ∧ ∀ c ∈ cs, c.endpoints = [])) ∧
      (∀ m mc,
        ents.foldl (fun acc ec => ec.2.endpoints.foldl (cableMinStep e ec) acc)
            acc = some (m, mc) →
        (acc = some (m, mc) ∨
          (mc ∈ cs ∧ ∃ p, find_closest_point s mc.endpoints = .ok p ∧
            ∃ ep ∈ mc.endpoints, m = totalDistance (mdist s p) ep e)) ∧
        (∀ c ∈ cs, ∀ p, find_closest_point s c.endpoints = .ok p →
          ∀ ep ∈ c.endpoints, m ≤ totalDistance (mdist s p) ep e) ∧
        (∀ a ac, acc = some (a, ac) → m ≤ a)) := by
  intro cs ents hrel
  induction hrel with
  | nil =>
      intro acc
      refine ⟨by simp, ?_⟩
      intro m mc h
      rw [List.foldl_nil] at h
      refine ⟨Or.inl h, by simp, ?_⟩
      intro a ac ha
      rw [h] at ha
      obtain ⟨h1, _⟩ := somePair_inj ha
      rw [h1]
  | @cons c ec cs' ents' hce hrest ih =>
      intro acc
      obtain ⟨hec2, p, hfp, hec1⟩ := hce
      rw [List.foldl_cons]
      set acc' := ec.2.endpoints.foldl (cableMinStep e ec) acc with hacc'
      have hinner := inner_foldl_spec e ec ec.2.endpoints acc
      have houter := ih acc'
      constructor
      · rw [houter.1, hinner.1, hec2]
        constructor
        · intro ⟨⟨h1, h2⟩, h3⟩
          refine ⟨h1, ?_⟩
          intro c' hc'
          rcases List.mem_cons.mp hc' with hc1 | hc1
          · rw [hc1]; exact h2
          · exact h3 c' hc1
        · intro ⟨h1, h2⟩
          exact ⟨⟨h1, h2 c (List.mem_cons_self _ _)⟩,
            fun c' hc' => h2 c' (List.mem_cons_of_mem _ hc')⟩
      · intro m mc h
        obtain ⟨hA, hB, hC⟩ := houter.2 m mc h
        -- facts about the inner accumulator
        refine ⟨?_, ?_, ?_⟩
        · rcases hA with hA | hA
          · -- the final value came through the head cable's inner fold
            obtain ⟨hA1, _, _⟩ := hinner.2 m mc hA
            rcases hA1 with hA1 | hA1
            · exact Or.inl hA1
            · obtain ⟨h1, ep, hep1, h2⟩ := hA1
              refine Or.inr ⟨by rw [h1, hec2]; exact List.mem_cons_self _ _,
                p, ?_, ep, ?_, ?_⟩
              · rw [h1, hec2]; exact hfp
              · rw [h1]; exact hep1
              · rw [h2, hec1]
          · obtain ⟨h1, hrestA⟩ := hA
            exact Or.inr ⟨List.mem_cons_of_mem _ h1, hrestA⟩
        · intro c' hc' p' hp' ep hepm
          rcases List.mem_cons.mp hc' with hc1 | hc1
          · -- the head cable: chain through the inner fold's result
            subst hc1
            have hpp : p' = p := by
              rw [hfp] at hp'
              exact (Option.some_injective _ (by
                have := hp'
                cases this
                rfl) : p' = p)
            by_cases hne : ec.2.endpoints = []
            · rw [hec2] at hne
              rw [hne] at hepm
              cases hepm
            · have hsome : ∃ m1 mc1, acc' = some (m1, mc1) := by
                match hx : acc' with
                | none =>
                    obtain ⟨h1, h2⟩ := hinner.1.mp hx
                    exact absurd h2 hne
                | some (m1, mc1) => exact ⟨m1, mc1, rfl⟩
              obtain ⟨m1, mc1, hm1⟩ := hsome
              obtain ⟨_, hBin, _⟩ := hinner.2 m1 mc1 hm1
              have hm_le : m ≤ m1 := hC m1 mc1 hm1
              have := hBin ep (by rw [hec2]; exact hepm)
              rw [hec1] at this
              rw [hpp]
              exact le_trans hm_le this
          · exact hB c' hc1 p' hp' ep hepm
        · intro a ac ha
          have hsome : ∃ m1 mc1, acc' = some (m1, mc1) := by
            match hx : acc' with
            | none =>
                obtain ⟨h1, _⟩ := hinner.1.mp hx
                rw [ha] at h1
                cases h1
            | some (m1, mc1) => exact ⟨m1, mc1, rfl⟩
          obtain ⟨m1, mc1, hm1⟩ := hsome
          obtain ⟨_, _, hCin⟩ := hinner.2 m1 mc1 hm1
          exact le_trans (hC m1 mc1 hm1) (hCin a ac ha)

/-- Full specification of the cheapest-cable search on a catalog whose
cables all have at least one endpoint: it succeeds; the result is `none`
exactly when the catalog is empty; otherwise the returned pair is attained
by some cable and endpoint and bounds the total distance of every cable and
endpoint. -/
theorem search_spec (cables : List Cable) (s e : Loc)
    (hep : ∀ c ∈ cables, c.endpoints ≠ []) :
    ∃ r, find_closest_submarine_cable_between cables s e = .ok r ∧
      (r = none ↔ cables = []) ∧
      (∀ cost cab, r = some (cost, cab) →
        cab ∈ cables ∧
        (∃ p, find_closest_point s cab.endpoints = .ok p ∧
          ∃ ep ∈ cab.endpoints, cost = totalDistance (mdist s p) ep e) ∧
        (∀ c ∈ cables, ∀ p, find_closest_point s c.endpoints = .ok p →
          ∀ ep ∈ c.endpoints, cost ≤ totalDistance (mdist s p) ep e)) := by
  obtain ⟨ents, hents, hrel⟩ := cableEntries_spec s cables hep
  obtain ⟨hnone, hsome⟩ := outer_foldl_spec s e cables ents hrel none
  refine ⟨ents.foldl
      (fun (acc : Option (ℝ × Cable)) (ec : ℝ × Cable) =>
        ec.2.endpoints.foldl (cableMinStep e ec) acc) none, ?_, ?_, ?_⟩
  · show (do
      let entries ← cableEntries s cables
      Except.ok (entries.foldl
        (fun (acc : Option (ℝ × Cable)) (ec : ℝ × Cable) =>
          ec.2.endpoints.foldl (cableMinStep e ec) acc) none)) = _
    rw [hents]
    rfl
  · rw [hnone]
    constructor
    · intro ⟨_, h2⟩
      cases hcs : cables with
      | nil => rfl
      | cons c rest =>
          exact absurd (h2 c (by rw [hcs]; exact List.mem_cons_self _ _))
            (hep c (by rw [hcs]; exact List.mem_cons_self _ _))
    · intro hcs
      subst hcs
      exact ⟨rfl, by simp⟩
  · intro cost cab hr
    obtain ⟨hA, hB, _⟩ := hsome cost cab hr
    rcases hA with hA | hA
    · cases hA
    · exact ⟨hA.1, hA.2, hB⟩

/-! ### Success of `draw_submarine_cable` on nonempty geometry -/

theorem findIdxP_mem {α : Type} [DecidableEq α] {l : List α} {a : α}
    (h : a ∈ l) : ∃ i, l.findIdx? (fun x => x = a) = some i := by
  induction l with
  | nil => simp at h
  | cons x xs ih =>
      rw [List.findIdx?_cons]
      by_cases hx : x = a
      · simp [hx]
      · simp only [hx, decide_False, cond_false]
        rcases List.mem_cons.mp h with h1 | h1
        · exact absurd h1.symm hx
        · obtain ⟨i, hi⟩ := ih h1
          exact ⟨i + 1, by simp [hi]⟩

theorem draw_submarine_ok (s e : Loc) (geom : List Loc) (name : String)
    (h : geom ≠ []) :
    ∃ sl, draw_submarine_cable s e geom name = .ok (.submarine sl name) := by
  obtain ⟨gsPt, hgs, hgsm, _⟩ := fcp_ok_of_ne_nil s h
  obtain ⟨gePt, hge, hgem, _⟩ := fcp_ok_of_ne_nil e h
  obtain ⟨i, hi⟩ := findIdxP_mem hgsm
  obtain ⟨j, hj⟩ := findIdxP_mem hgem
  refine ⟨(geom.drop (if i > j then j else i)).take
    ((if i > j then i else j) + 1 - (if i > j then j else i)), ?_⟩
  unfold draw_submarine_cable
  rw [hgs, hge]
  show (do
    let gs ← match geom.findIdx? (fun x => x = gsPt) with
             | some i => Except.ok i
             | none => Except.error PgErr.valueError
    let ge ← match geom.findIdx? (fun x => x = gePt) with
             | some i => Except.ok i
             | none => Except.error PgErr.valueError
    let lo := if gs > ge then ge else gs
    let hi := if gs > ge then gs else ge
    Except.ok (Segment.submarine ((geom.drop lo).take (hi + 1 - lo)) name)) = _
  rw [hi, hj]
  rfl

/-! ### Claim C5 -/

/-- **C5** (confirmed): for every target location and non-empty candidate
list, `find_closest_point` returns a member of the candidates whose planar
distance to the target is minimal; among equidistant candidates it returns
the first encountered (every earlier candidate is strictly farther). -/
theorem C5_nearest_point_correct (target : Loc) (positions : List Loc)
    (h : positions ≠ []) :
    ∃ p, find_closest_point target positions = .ok p ∧ p ∈ positions ∧
      (∀ q ∈ positions, mdist p target ≤ mdist q target) ∧
      ∃ l1 l2, positions = l1 ++ p :: l2 ∧
        ∀ q ∈ l1, mdist p target < mdist q target :=
  fcp_spec target positions h

theorem C5_nearest_point_correct_witness :
    ∃ p, find_closest_point ((0 : ℚ), (0 : ℚ)) [((3 : ℚ), (0 : ℚ))] = .ok p ∧
      p ∈ [((3 : ℚ), (0 : ℚ))] ∧
      (∀ q ∈ [((3 : ℚ), (0 : ℚ))], mdist p (0, 0) ≤ mdist q (0, 0)) ∧
      ∃ l1 l2, [((3 : ℚ), (0 : ℚ))] = l1 ++ p :: l2 ∧
        ∀ q ∈ l1, mdist p (0, 0) < mdist q (0, 0) :=
  C5_nearest_point_correct ((0 : ℚ), (0 : ℚ)) [((3 : ℚ), (0 : ℚ))]
    (by decide)

/-! ### Claim C6 -/

/-- **C6** (corrected, counterexample): on an empty candidate list the
nearest-point search does fail, but with the generic `TypeError` raised by
`tuple(None)` — not with a dedicated `EmptyCandidateSetError`. -/
theorem C6_counterexample :
    find_closest_point ((0 : ℚ), (0 : ℚ)) [] = .error .typeError ∧
      PgErr.typeError ≠ PgErr.emptyCandidateSetError :=
  ⟨rfl, by decide⟩

/-- **C6** (amended): for every target location, calling the nearest-point
search with an empty candidate list fails — with the `TypeError` raised by
`tuple(None)`; no dedicated `EmptyCandidateSetError` exists in the code. -/
theorem C6_amended_empty_candidates_fail (target : Loc) :
    find_closest_point target [] = .error .typeError := rfl

/-! ### Claim C7 -/

theorem loadRawAux_ok_iff : ∀ (raws : List RawCable) (i0 : Index),
    (∃ i, loadRawAux i0 raws = .ok i) ↔ ∀ r ∈ raws, r.endpoints ≠ none := by
  intro raws
  induction raws with
  | nil => intro i0; simp [loadRawAux]
  | cons r rest ih =>
      intro i0
      constructor
      · intro ⟨i, hi⟩ r' hr'
        cases hre : r.endpoints with
        | none =>
            unfold loadRawAux at hi
            rw [hre] at hi
            cases hi
        | some eps =>
            unfold loadRawAux at hi
            rw [hre] at hi
            rcases List.mem_cons.mp hr' with h1 | h1
            · rw [h1, hre]; exact fun hc => by cases hc
            · exact (ih _).mp ⟨i, hi⟩ r' h1
      · intro hall
        cases hre : r.endpoints with
        | none => exact absurd hre (hall r (List.mem_cons_self _ _))
        | some eps =>
            obtain ⟨i, hi⟩ := (ih (if eps.length = 1 then i0
              else insertCableEndpoints i0 ⟨r.name, eps, r.geometry⟩)).mpr
              (fun r' hr' => hall r' (List.mem_cons_of_mem _ hr'))
            refine ⟨i, ?_⟩
            unfold loadRawAux
            rw [hre]
            exact hi

/-- **C7** (corrected, counterexample): loading two *empty* catalogs does
not fail at all — it succeeds and produces an empty index, contradicting
"fails with `DataLoadError` whenever either catalog is empty". -/
theorem C7_counterexample : loadRaw [] [] = .ok ([] : Index) := rfl

/-- **C7** (amended): loading fails — with a `KeyError`, there being no
dedicated `DataLoadError` — exactly when some submarine record lacks the
`endpoints` field; empty catalogs are accepted and yield a (possibly empty)
index. -/
theorem C7_amended_load_ok_iff (g : List (String × Loc)) (raws : List RawCable) :
    (∃ i, loadRaw g raws = .ok i) ↔ ∀ r ∈ raws, r.endpoints ≠ none :=
  loadRawAux_ok_iff raws _

theorem C7_amended_load_ok_iff_witness :
    (∃ i, loadRaw [] [⟨"X", none, []⟩] = .ok i) ↔
      ∀ r ∈ [(⟨"X", none, []⟩ : RawCable)], r.endpoints ≠ none :=
  C7_amended_load_ok_iff [] [⟨"X", none, []⟩]

/-! ### Claim C9 -/

/-- **C9** (confirmed): after loading, the keys of the index are unique and
each key is associated with exactly one `InfrastructurePoint`; in particular
when several cables share a landing coordinate only one association is
retained.  (The index is a pure value in this embedding, mirroring that the
source never writes to `INFRASTRUCTURE_POINTS` after the load.) -/
theorem C9_index_keys_unique (g : List (String × Loc)) (cbs : List Cable) :
    (keys (loadIndex g cbs)).Nodup ∧
      ∀ k v w, (k, v) ∈ loadIndex g cbs → (k, w) ∈ loadIndex g cbs → v = w := by
  refine ⟨keys_loadIndex_nodup g cbs, ?_⟩
  intro k v w hv hw
  exact assoc_unique (keys_loadIndex_nodup g cbs) k v w hv hw

theorem C9_index_keys_unique_witness :
    PointData.submarine ⟨"X", [(0, 0), (1, 0)], [(0, 0)]⟩ =
      PointData.submarine ⟨"X", [(0, 0), (1, 0)], [(0, 0)]⟩ :=
  (C9_index_keys_unique [("A", (0, 0))] [⟨"X", [(0, 0), (1, 0)], [(0, 0)]⟩]).2
    (0, 0) _ _ (by decide) (by decide)

/-! ### Claim C10 -/

/-- **C10** (confirmed): with an empty submarine catalog, planning between
any two ground exchange points fails with a `TypeError`: the cheapest-cable
search returns `(None, None)` and `None < float` raises.  Ground-to-ground
planning is total only when at least one cable exists. -/
theorem C10_empty_catalog_ground_fails (idx : Index) (n : ℕ) (s e : Loc)
    (a b : String)
    (hs : lookupPoint idx s = some (.groundEx a))
    (he : lookupPoint idx e = some (.groundEx b)) :
    build_path_between idx [] (n + 1) s e = .error .typeError := by
  show build_path_step idx [] (build_path_between idx [] n) s e = _
  unfold build_path_step
  rw [hs, he]
  show ground_to_ground idx [] (build_path_between idx [] n) s e = _
  unfold ground_to_ground
  rfl

theorem C10_empty_catalog_ground_fails_witness :
    build_path_between (loadIndex [("A", (0, 0)), ("B", (1, 0))] []) [] 1
      (0, 0) (1, 0) = .error .typeError :=
  C10_empty_catalog_ground_fails _ 0 (0, 0) (1, 0) "A" "B"
    (by decide) (by decide)

/-! ### Claim C8 -/

/-- The degenerate single-endpoint cable of the C8 counterexample. -/
def cblSingle : Cable := ⟨"X", [(0, 0)], [(0, 0)]⟩

/-- **C8** (corrected, counterexample): the cheapest-cable search iterates
the raw catalog `SUBMARINE_CABLES`, not the index, so it can return a cable
with exactly one endpoint — here a catalog consisting solely of such a cable,
which the search returns. -/
theorem C8_counterexample :
    find_closest_submarine_cable_between [cblSingle] ((0 : ℚ), (0 : ℚ))
        ((0 : ℚ), (0 : ℚ)) = .ok (some (0, cblSingle)) ∧
      cblSingle.endpoints.length = 1 := by
  constructor
  · have h1 : find_closest_submarine_cable_between [cblSingle]
        ((0 : ℚ), (0 : ℚ)) ((0 : ℚ), (0 : ℚ)) =
        .ok (some (totalDistance (mdist ((0 : ℚ), (0 : ℚ)) ((0 : ℚ), (0 : ℚ)))
          ((0 : ℚ), (0 : ℚ)) ((0 : ℚ), (0 : ℚ)), cblSingle)) := rfl
    rw [h1]
    have h2 : totalDistance (mdist ((0 : ℚ), (0 : ℚ)) ((0 : ℚ), (0 : ℚ)))
        ((0 : ℚ), (0 : ℚ)) ((0 : ℚ), (0 : ℚ)) = 0 := by
      unfold totalDistance
      rw [mdist_self, mdist1_eq_abs]
      norm_num
    rw [h2]
  · decide

/-- **C8** (amended): a single-endpoint cable is indeed excluded from the
infrastructure index — no index entry ever stores one — but the search
ranges over the raw catalog and may return such a cable (see the
counterexample). -/
theorem C8_amended_index_excludes_single (g : List (String × Loc))
    (cbs : List Cable) (k : Loc) (c : Cable)
    (h : lookupPoint (loadIndex g cbs) k = some (.submarine c)) :
    c.endpoints.length ≠ 1 :=
  (lookup_submarine_valid g cbs k c h).2.2

theorem C8_amended_index_excludes_single_witness :
    (⟨"Y", [(0, 0), (1, 0)], [(0, 0)]⟩ : Cable).endpoints.length ≠ 1 :=
  C8_amended_index_excludes_single [] [⟨"Y", [(0, 0), (1, 0)], [(0, 0)]⟩]
    (0, 0) ⟨"Y", [(0, 0), (1, 0)], [(0, 0)]⟩ (by decide)

/-! ### Claim C4 -/

theorem totalDistance_eq_abs (ed : ℝ) (ep e : Loc) :
    totalDistance ed ep e = ed + mdist ep e + 0.5 * |ed - mdist ep e| := by
  unfold totalDistance
  rw [mdist1_eq_abs]

/-- **C4** (corrected, counterexample): on a catalog containing a cable with
an empty endpoint list, the search neither returns a minimising pair nor
`None` — it fails with the `TypeError` of `tuple(None)` inside
`find_closest_point`, although the catalog is non-empty. -/
theorem C4_counterexample :
    find_closest_submarine_cable_between [⟨"E", [], []⟩] ((0 : ℚ), (0 : ℚ))
        ((0 : ℚ), (0 : ℚ)) = .error .typeError ∧
      ([⟨"E", [], []⟩] : List Cable) ≠ [] :=
  ⟨rfl, by decide⟩

/-- **C4** (amended): provided every cable of the catalog has at least one
endpoint, the cheapest-cable search succeeds and returns the pair
`(totalCost, cable)` minimising
`entry + exit + 0.5 * |entry - exit|` over all cables and all of each
cable's endpoints, where `entry` is the distance from the start to that
cable's nearest endpoint; it returns `(None, None)` exactly when the catalog
contains no cables.  (A cable with no endpoints instead makes the search
fail with a `TypeError`.) -/
theorem C4_amended_cheapest_cable (cables : List Cable) (s e : Loc)
    (hep : ∀ c ∈ cables, c.endpoints ≠ []) :
    ∃ r, find_closest_submarine_cable_between cables s e = .ok r ∧
      (r = none ↔ cables = []) ∧
      (∀ cost cab, r = some (cost, cab) →
        cab ∈ cables ∧
        (∃ p, find_closest_point s cab.endpoints = .ok p ∧
          ∃ ep ∈ cab.endpoints,
            cost = mdist s p + mdist ep e + 0.5 * |mdist s p - mdist ep e|) ∧
        (∀ c ∈ cables, ∀ p, find_closest_point s c.endpoints = .ok p →
          ∀ ep ∈ c.endpoints,
            cost ≤ mdist s p + mdist ep e + 0.5 * |mdist s p - mdist ep e|)) := by
  obtain ⟨r, h1, h2, h3⟩ := search_spec cables s e hep
  refine ⟨r, h1, h2, ?_⟩
  intro cost cab hr
  obtain ⟨hmem, ⟨p, hp, ep, hepm, hcost⟩, hmin⟩ := h3 cost cab hr
  refine ⟨hmem, ⟨p, hp, ep, hepm, by rw [hcost, totalDistance_eq_abs]⟩, ?_⟩
  intro c hc p' hp' ep' hep'
  rw [← totalDistance_eq_abs]
  exact hmin c hc p' hp' ep' hep'

theorem C4_amended_cheapest_cable_witness :
    ∃ r, find_closest_submarine_cable_between [cblSingle] ((0 : ℚ), (0 : ℚ))
        ((0 : ℚ), (0 : ℚ)) = .ok r ∧
      (r = none ↔ [cblSingle] = []) ∧
      (∀ cost cab, r = some (cost, cab) →
        cab ∈ [cblSingle] ∧
        (∃ p, find_closest_point ((0 : ℚ), (0 : ℚ)) cab.endpoints = .ok p ∧
          ∃ ep ∈ cab.endpoints,
            cost = mdist ((0 : ℚ), (0 : ℚ)) p + mdist ep ((0 : ℚ), (0 : ℚ)) +
              0.5 * |mdist ((0 : ℚ), (0 : ℚ)) p - mdist ep ((0 : ℚ), (0 : ℚ))|) ∧
        (∀ c ∈ [cblSingle], ∀ p,
          find_closest_point ((0 : ℚ), (0 : ℚ)) c.endpoints = .ok p →
          ∀ ep ∈ c.endpoints,
            cost ≤ mdist ((0 : ℚ), (0 : ℚ)) p + mdist ep ((0 : ℚ), (0 : ℚ)) +
              0.5 * |mdist ((0 : ℚ), (0 : ℚ)) p - mdist ep ((0 : ℚ), (0 : ℚ))|)) :=
  C4_amended_cheapest_cable [cblSingle] ((0 : ℚ), (0 : ℚ)) ((0 : ℚ), (0 : ℚ))
    (by decide)

/-! ### Claim C3 -/

theorem break_path_eq (idx : Index)
    (recB : Loc → Loc → Except PgErr (List Segment)) (s e m : Loc)
    (hm : find_closest_point ((s.1 + e.1) / 2, (s.2 + e.2) / 2) (keys idx) =
      .ok m) :
    break_path idx recB s e =
      if m = s ∨ m = e then .ok [.ground s e]
      else (recB s m).bind (fun a => (recB m e).bind (fun b => .ok (a ++ b))) := by
  unfold break_path
  rw [hm]
  rfl

/-- **C3** (confirmed): the ground-segment break rule.  (i) If the planar
distance strictly exceeds `CABLE_BREAK_LEN` and the snapped midpoint differs
from both endpoints, the segment is not drawn but decomposed into the two
recursive calls `(start, midSnap)` and `(midSnap, end)`.  (ii) At exactly the
threshold the direct segment is drawn (strict `>`).  (iii) If the snapped
midpoint equals either endpoint, the direct segment is drawn unconditionally,
bypassing the threshold check. -/
theorem C3_break_rule (idx : Index)
    (recB : Loc → Loc → Except PgErr (List Segment)) (s e : Loc) :
    (∀ m, find_closest_point ((s.1 + e.1) / 2, (s.2 + e.2) / 2) (keys idx) =
        .ok m → m ≠ s → m ≠ e → mdist s e > CABLE_BREAK_LEN →
      draw_ground_line idx recB s e false =
        (recB s m).bind (fun a => (recB m e).bind (fun b => .ok (a ++ b)))) ∧
    (mdist s e = CABLE_BREAK_LEN →
      draw_ground_line idx recB s e false = .ok [.ground s e]) ∧
    (∀ m, find_closest_point ((s.1 + e.1) / 2, (s.2 + e.2) / 2) (keys idx) =
        .ok m → (m = s ∨ m = e) →
      draw_ground_line idx recB s e false = .ok [.ground s e]) := by
  refine ⟨?_, ?_, ?_⟩
  · intro m hm hms hme h10
    unfold draw_ground_line
    rw [if_pos ⟨h10, rfl⟩, break_path_eq idx recB s e m hm,
      if_neg (by rintro (h | h); exacts [hms h, hme h])]
  · intro h10
    unfold draw_ground_line
    rw [if_neg (by
      intro hc
      rw [h10] at hc
      exact lt_irrefl _ hc.1)]
  · intro m hm hor
    unfold draw_ground_line
    by_cases hgt : mdist s e > CABLE_BREAK_LEN
    · rw [if_pos ⟨hgt, rfl⟩, break_path_eq idx recB s e m hm, if_pos hor]
    · rw [if_neg (fun hc => hgt hc.1)]

/-- The index of the C3 witness: three collinear ground exchanges. -/
def idxW : Index := loadIndex [("A", (0, 0)), ("B", (20, 0)), ("M", (10, 0))] []

/-- The recursive-planner stub used in the C3 witness. -/
def recBW : Loc → Loc → Except PgErr (List Segment) :=
  fun a b => .ok [.ground a b]

theorem C3_break_rule_witness :
    draw_ground_line idxW recBW ((0 : ℚ), (0 : ℚ)) ((20 : ℚ), (0 : ℚ)) false =
      (recBW ((0 : ℚ), (0 : ℚ)) ((10 : ℚ), (0 : ℚ))).bind
        (fun a => (recBW ((10 : ℚ), (0 : ℚ)) ((20 : ℚ), (0 : ℚ))).bind
          (fun b => .ok (a ++ b))) := by
  have e1 : mdist ((0 : ℚ), (0 : ℚ)) ((10 : ℚ), (0 : ℚ)) = 10 := by
    rw [mdist_horizontal]; norm_num
  have e2 : mdist ((20 : ℚ), (0 : ℚ)) ((10 : ℚ), (0 : ℚ)) = 10 := by
    rw [mdist_horizontal]; norm_num
  have e3 : mdist ((10 : ℚ), (0 : ℚ)) ((10 : ℚ), (0 : ℚ)) = 0 := mdist_self _
  have hkeys : keys idxW =
      [((0 : ℚ), (0 : ℚ)), ((20 : ℚ), (0 : ℚ)), ((10 : ℚ), (0 : ℚ))] := by decide
  have hfcp : find_closest_point ((10 : ℚ), (0 : ℚ))
      [((0 : ℚ), (0 : ℚ)), ((20 : ℚ), (0 : ℚ)), ((10 : ℚ), (0 : ℚ))] =
      .ok ((10 : ℚ), (0 : ℚ)) := by
    unfold find_closest_point
    rw [fcpAux_cons_none,
      fcpAux_cons_ge _ (by rw [e2, e1]; exact lt_irrefl _),
      fcpAux_cons_lt _ (by rw [e3, e1]; norm_num)]
    rfl
  refine (C3_break_rule idxW recBW ((0 : ℚ), (0 : ℚ)) ((20 : ℚ), (0 : ℚ))).1
    ((10 : ℚ), (0 : ℚ)) ?_ (by decide) (by decide) ?_
  · rw [hkeys]
    norm_num
    exact hfcp
  · have h20 : mdist ((0 : ℚ), (0 : ℚ)) ((20 : ℚ), (0 : ℚ)) = 20 := by
      rw [mdist_horizontal]; norm_num
    rw [h20]
    unfold CABLE_BREAK_LEN
    norm_num

/-! ### Infrastructure for the termination proof (C1): reduction helpers,
the midpoint-break geometry, and the lexicographic measure -/

theorem okBind {A B : Type} (a : A) (f : A → Except PgErr B) :
    ((Except.ok a : Except PgErr A) >>= f) = f a := rfl

theorem errBind {A B : Type} (er : PgErr) (f : A → Except PgErr B) :
    ((Except.error er : Except PgErr A) >>= f) = .error er := rfl

theorem sqDist_pos_of_ne {a b : Loc} (h : a ≠ b) : 0 < sqDist a b := by
  rcases lt_or_eq_of_le (sqDist_nonneg a b) with hlt | heq
  · exact hlt
  · exfalso
    apply h
    unfold sqDist at heq
    have h1 : (a.1 - b.1) ^ 2 = 0 ∧ (a.2 - b.2) ^ 2 = 0 := by
      constructor <;> nlinarith [sq_nonneg (a.1 - b.1), sq_nonneg (a.2 - b.2)]
    have h2 : a.1 = b.1 := by nlinarith [h1.1]
    have h3 : a.2 = b.2 := by nlinarith [h1.2]
    exact Prod.ext h2 h3

/-- The geometric heart of the break rule: if `m` is at most as far from the
arithmetic midpoint of `s, e` as `s` is, and `m ≠ e`, then `m` is strictly
closer to `s` than `e` is (parallelogram law, exact rational arithmetic). -/
theorem sq_break_lt (s e p m : Loc)
    (hm1 : m.1 = (s.1 + e.1) / 2) (hm2 : m.2 = (s.2 + e.2) / 2)
    (hle : sqDist p m ≤ sqDist s m) (hne : p ≠ e) :
    sqDist s p < sqDist s e := by
  have hpos : 0 < sqDist p e := sqDist_pos_of_ne hne
  unfold sqDist at hle hpos ⊢
  rw [hm1, hm2] at hle
  nlinarith [hle, hpos]

/-- All squared distances between points of a key list. -/
def DSet (K : List Loc) : Finset ℚ :=
  (K.toFinset ×ˢ K.toFinset).image (fun pq => sqDist pq.1 pq.2)

theorem sqDist_mem_DSet {K : List Loc} {a b : Loc} (ha : a ∈ K) (hb : b ∈ K) :
    sqDist a b ∈ DSet K := by
  unfold DSet
  rw [Finset.mem_image]
  exact ⟨(a, b), Finset.mem_product.mpr
    ⟨List.mem_toFinset.mpr ha, List.mem_toFinset.mpr hb⟩, rfl⟩

/-- Rank of a squared distance among the index's pairwise distances. -/
def rankD (K : List Loc) (q : ℚ) : ℕ :=
  ((DSet K).filter (fun x => x < q)).card

theorem rankD_lt {K : List Loc} {q' q : ℚ} (hq' : q' ∈ DSet K) (h : q' < q) :
    rankD K q' < rankD K q := by
  unfold rankD
  refine Finset.card_lt_card ?_
  rw [Finset.ssubset_iff_of_subset]
  · exact ⟨q', Finset.mem_filter.mpr ⟨hq', h⟩,
      fun hc => absurd (Finset.mem_filter.mp hc).2 (lt_irrefl q')⟩
  · intro x hx
    obtain ⟨h1, h2⟩ := Finset.mem_filter.mp hx
    exact Finset.mem_filter.mpr ⟨h1, lt_trans h2 h⟩

theorem lastPos_le_length (cbs : List Cable) (k : Loc) :
    lastPos cbs k ≤ cbs.length := by
  unfold lastPos
  have h := @List.findIdx_le_length _ (fun c => decide (Claims c k))
    cbs.reverse
  rwa [List.length_reverse] at h

/-- The tertiary measure component: `0` when the pair is a "fixpoint" state
whose nearest-endpoint computation returns the relevant endpoint itself (such
states recurse only through strict distance decreases), `1` otherwise. -/
noncomputable def phi (idx : Index) (s e : Loc) : ℕ :=
  match lookupPoint idx s, lookupPoint idx e with
  | some (.submarine c), some (.groundEx _) =>
      if find_closest_point e c.endpoints = .ok s then 0 else 1
  | some (.submarine c), some (.submarine _) =>
      if find_closest_point e c.endpoints = .ok s then 0 else 1
  | some (.groundEx _), some (.submarine c') =>
      if find_closest_point s c'.endpoints = .ok e then 0 else 1
  | _, _ => 0

theorem phi_le_one (idx : Index) (s e : Loc) : phi idx s e ≤ 1 := by
  unfold phi
  cases lookupPoint idx s with
  | none => cases lookupPoint idx e <;> simp
  | some v =>
      cases v with
      | groundEx a =>
          cases he : lookupPoint idx e with
          | none => simp
          | some w =>
              cases w with
              | groundEx b => simp
              | submarine c' => dsimp only; split_ifs <;> simp
      | submarine c =>
          cases he : lookupPoint idx e with
          | none => simp
          | some w =>
              cases w with
              | groundEx b => dsimp only; split_ifs <;> simp
              | submarine c' => dsimp only; split_ifs <;> simp

theorem phi_sub_ground {idx : Index} {s e : Loc} {c : Cable} {b : String}
    (hs : lookupPoint idx s = some (.submarine c))
    (he : lookupPoint idx e = some (.groundEx b)) :
    phi idx s e = if find_closest_point e c.endpoints = .ok s then 0 else 1 := by
  unfold phi
  rw [hs, he]

theorem phi_sub_sub {idx : Index} {s e : Loc} {c c' : Cable}
    (hs : lookupPoint idx s = some (.submarine c))
    (he : lookupPoint idx e = some (.submarine c')) :
    phi idx s e =
      if find_closest_point e c.endpoints = .ok s then 0 else 1 := by
  unfold phi
  rw [hs, he]

theorem phi_ground_sub {idx : Index} {s e : Loc} {a : String} {c' : Cable}
    (hs : lookupPoint idx s = some (.groundEx a))
    (he : lookupPoint idx e = some (.submarine c')) :
    phi idx s e = if find_closest_point s c'.endpoints = .ok e then 0 else 1 := by
  unfold phi
  rw [hs, he]

/-- The lexicographic termination measure of a planner pair, flattened into a
natural number: squared-distance rank, then last-writer positions, then the
fixpoint flag. -/
noncomputable def M (g : List (String × Loc)) (cbs : List Cable) (s e : Loc) : ℕ :=
  rankD (keys (loadIndex g cbs)) (sqDist s e) * (4 * cbs.length + 4) +
    (lastPos cbs s + lastPos cbs e) * 2 + phi (loadIndex g cbs) s e

theorem M_lt_of_rank_lt {g : List (String × Loc)} {cbs : List Cable}
    {a b s e : Loc}
    (h : rankD (keys (loadIndex g cbs)) (sqDist a b) <
      rankD (keys (loadIndex g cbs)) (sqDist s e)) :
    M g cbs a b < M g cbs s e := by
  unfold M
  have h1 := lastPos_le_length cbs a
  have h2 := lastPos_le_length cbs b
  have h3 := phi_le_one (loadIndex g cbs) a b
  have h4 : rankD (keys (loadIndex g cbs)) (sqDist a b) + 1 ≤
      rankD (keys (loadIndex g cbs)) (sqDist s e) := h
  nlinarith [h4]

theorem M_lt_of_mu_lt {g : List (String × Loc)} {cbs : List Cable}
    {a b s e : Loc}
    (hr : sqDist a b = sqDist s e)
    (h : lastPos cbs a + lastPos cbs b < lastPos cbs s + lastPos cbs e) :
    M g cbs a b < M g cbs s e := by
  unfold M
  rw [hr]
  have h3 := phi_le_one (loadIndex g cbs) a b
  omega

theorem M_lt_of_phi_lt {g : List (String × Loc)} {cbs : List Cable}
    {a b s e : Loc}
    (hr : sqDist a b = sqDist s e)
    (hmu : lastPos cbs a + lastPos cbs b = lastPos cbs s + lastPos cbs e)
    (h : phi (loadIndex g cbs) a b < phi (loadIndex g cbs) s e) :
    M g cbs a b < M g cbs s e := by
  unfold M
  rw [hr, hmu]
  omega

theorem okBindE {A B : Type} (a : A) (f : A → Except PgErr B) :
    (Except.ok a : Except PgErr A).bind f = f a := rfl

theorem claimed_mem_keys (g : List (String × Loc)) (cbs : List Cable)
    (c : Cable) (hc : c ∈ cbs) (k : Loc) (hcl : Claims c k) :
    k ∈ keys (loadIndex g cbs) := by
  obtain ⟨c', h⟩ := claimed_lookup_submarine g cbs k c hc hcl
  exact (mem_keys_iff_lookup _ k).mpr ⟨_, h⟩

theorem draw_gl_break_eq {idx : Index}
    {recB : Loc → Loc → Except PgErr (List Segment)} {s e : Loc}
    (h : mdist s e > CABLE_BREAK_LEN) :
    draw_ground_line idx recB s e false = break_path idx recB s e := by
  unfold draw_ground_line
  rw [if_pos ⟨h, rfl⟩]

theorem draw_gl_direct_eq {idx : Index}
    {recB : Loc → Loc → Except PgErr (List Segment)} {s e : Loc}
    (h : ¬ mdist s e > CABLE_BREAK_LEN) :
    draw_ground_line idx recB s e false = .ok [.ground s e] := by
  unfold draw_ground_line
  rw [if_neg (fun hc => h hc.1)]

theorem append_ne_nil_left {A : Type} {l1 l2 : List A} (h : l1 ≠ []) :
    l1 ++ l2 ≠ [] := by
  intro hc
  exact h (List.append_eq_nil.mp hc).1

/-- Success of `draw_ground_line` on index keys, given recursive success on
all strictly closer pairs of keys: either the segment is drawn directly, or
the midpoint break recurses on two strictly closer pairs. -/
theorem draw_gl_success (idx : Index)
    (recB : Loc → Loc → Except PgErr (List Segment)) (s' e' : Loc)
    (hs' : s' ∈ keys idx) (he' : e' ∈ keys idx)
    (Hrec : ∀ a b, a ∈ keys idx → b ∈ keys idx → sqDist a b < sqDist s' e' →
      ∃ segs, recB a b = .ok segs ∧ segs ≠ []) :
    ∃ segs, draw_ground_line idx recB s' e' false = .ok segs ∧ segs ≠ [] := by
  by_cases h10 : mdist s' e' > CABLE_BREAK_LEN
  · have hK : keys idx ≠ [] := by
      intro hc
      rw [hc] at hs'
      cases hs'
    obtain ⟨m, hm, hmem, hmin⟩ :=
      fcp_ok_of_ne_nil ((s'.1 + e'.1) / 2, (s'.2 + e'.2) / 2) hK
    by_cases hor : m = s' ∨ m = e'
    · refine ⟨[.ground s' e'], ?_, by simp⟩
      rw [draw_gl_break_eq h10, break_path_eq _ _ _ _ _ hm, if_pos hor]
    · push_neg at hor
      have hle_s : sqDist m ((s'.1 + e'.1) / 2, (s'.2 + e'.2) / 2) ≤
          sqDist s' ((s'.1 + e'.1) / 2, (s'.2 + e'.2) / 2) :=
        mdist_le_mdist_iff.mp (hmin s' hs')
      have hle_e : sqDist m ((s'.1 + e'.1) / 2, (s'.2 + e'.2) / 2) ≤
          sqDist e' ((s'.1 + e'.1) / 2, (s'.2 + e'.2) / 2) :=
        mdist_le_mdist_iff.mp (hmin e' he')
      have h1 : sqDist s' m < sqDist s' e' :=
        sq_break_lt s' e' m _ rfl rfl hle_s hor.2
      have h2 : sqDist m e' < sqDist s' e' := by
        have h3 := sq_break_lt e' s' m
          ((s'.1 + e'.1) / 2, (s'.2 + e'.2) / 2)
          (by show (s'.1 + e'.1) / 2 = (e'.1 + s'.1) / 2; ring)
          (by show (s'.2 + e'.2) / 2 = (e'.2 + s'.2) / 2; ring)
          hle_e hor.1
        rw [sqDist_comm m e', sqDist_comm s' e']
        exact h3
      obtain ⟨segs1, hg1, hne1⟩ := Hrec s' m hs' hmem h1
      obtain ⟨segs2, hg2, hne2⟩ := Hrec m e' hmem he' h2
      refine ⟨segs1 ++ segs2, ?_, append_ne_nil_left hne1⟩
      rw [draw_gl_break_eq h10, break_path_eq _ _ _ _ _ hm,
        if_neg (by rintro (h | h); exacts [hor.1 h, hor.2 h])]
      simp only [hg1, okBindE, hg2]
  · exact ⟨[.ground s' e'], draw_gl_direct_eq h10, by simp⟩

/-- Success of the ground-to-ground dispatch case: the cable-assisted route
strictly decreases the distance to the target (the chosen cable's cost is
below the direct distance, and both the entry leg and the remaining exit-leg
pair are strictly shorter), and the direct route draws or breaks. -/
theorem g2g_success (g : List (String × Loc)) (cbs : List Cable)
    (hcb : cbs ≠ []) (hep : ∀ c ∈ cbs, c.endpoints ≠ [])
    (hgeo : ∀ c ∈ cbs, c.geometry ≠ [])
    (recB : Loc → Loc → Except PgErr (List Segment)) (s e : Loc)
    (hs : s ∈ keys (loadIndex g cbs)) (he : e ∈ keys (loadIndex g cbs))
    (Hrec : ∀ a b, a ∈ keys (loadIndex g cbs) → b ∈ keys (loadIndex g cbs) →
      M g cbs a b < M g cbs s e → ∃ segs, recB a b = .ok segs ∧ segs ≠ []) :
    ∃ segs, ground_to_ground (loadIndex g cbs) cbs recB s e = .ok segs ∧
      segs ≠ [] := by
  obtain ⟨r, hsearch, hnone, hminspec⟩ := search_spec cbs s e hep
  cases r with
  | none => exact absurd (hnone.mp rfl) hcb
  | some wc =>
    obtain ⟨w, W⟩ := wc
    obtain ⟨hWmem, ⟨p, hp, ep, hepm, hcost⟩, hmin⟩ := hminspec w W rfl
    by_cases hw : w < mdist s e
    · have hwp : mdist s p ≤ w := by
        rw [hcost]; exact entry_le_totalDistance _ _ _
      have hwx : mdist ep e ≤ w := by
        rw [hcost]; exact exit_le_totalDistance (mdist_nonneg _ _) _ _
      have hlen : W.endpoints.length ≠ 1 := by
        intro hlen1
        obtain ⟨p0, hp0⟩ := List.length_eq_one.mp hlen1
        have hpp : p = p0 := by
          have hmm := fcp_ok_mem hp
          rw [hp0] at hmm
          simpa using hmm
        have hepp : ep = p0 := by
          rw [hp0] at hepm
          simpa using hepm
        have h1 : mdist s p0 + mdist p0 e ≤ w := by
          rw [hcost, hpp, hepp]
          unfold totalDistance
          have h2 := mdist1_nonneg (mdist s p0) (mdist p0 e)
          linarith
        have h2 := mdist_triangle s p0 e
        linarith
      have hClp : Claims W p := ⟨fcp_ok_mem hp, hlen⟩
      have hpk : p ∈ keys (loadIndex g cbs) :=
        claimed_mem_keys g cbs W hWmem p hClp
      obtain ⟨x, hx, hxm, hxmin⟩ := fcp_ok_of_ne_nil e (hep W hWmem)
      have hClx : Claims W x := ⟨hxm, hlen⟩
      have hxk : x ∈ keys (loadIndex g cbs) :=
        claimed_mem_keys g cbs W hWmem x hClx
      have hsp : sqDist s p < sqDist s e :=
        mdist_lt_mdist_iff.mp (lt_of_le_of_lt hwp hw)
      have hxe : sqDist x e < sqDist s e :=
        mdist_lt_mdist_iff.mp (lt_of_le_of_lt (le_trans (hxmin ep hepm) hwx) hw)
      obtain ⟨segs1, hd1, hne1⟩ := draw_gl_success (loadIndex g cbs) recB s p
        hs hpk (fun a b ha hb hab => Hrec a b ha hb
          (M_lt_of_rank_lt (rankD_lt (sqDist_mem_DSet ha hb) (lt_trans hab hsp))))
      obtain ⟨sl2, hd2⟩ := draw_submarine_ok p x W.geometry W.name
        (hgeo W hWmem)
      obtain ⟨segs3, hd3, _⟩ := Hrec x e hxk he
        (M_lt_of_rank_lt (rankD_lt (sqDist_mem_DSet hxk he) hxe))
      refine ⟨segs1 ++ [Segment.submarine sl2 W.name] ++ segs3, ?_,
        append_ne_nil_left (append_ne_nil_left hne1)⟩
      unfold ground_to_ground
      simp only [hsearch, okBind]
      rw [if_pos hw]
      simp only [hp, okBind, hx, hd1, hd2, hd3]
    · obtain ⟨segs, hd, hne⟩ := draw_gl_success (loadIndex g cbs) recB s e
        hs he (fun a b ha hb hab => Hrec a b ha hb
          (M_lt_of_rank_lt (rankD_lt (sqDist_mem_DSet ha hb) hab)))
      refine ⟨segs, ?_, hne⟩
      unfold ground_to_ground
      simp only [hsearch, okBind]
      rw [if_neg hw]
      exact hd

/-- Success of the submarine-to-ground dispatch case: advancing to the
cable endpoint nearest the target never increases the distance; on a tie the
last-writer position or the fixpoint flag decreases. -/
theorem s2g_success (g : List (String × Loc)) (cbs : List Cable)
    (hep : ∀ c ∈ cbs, c.endpoints ≠ [])
    (hgeo : ∀ c ∈ cbs, c.geometry ≠ [])
    (recB : Loc → Loc → Except PgErr (List Segment)) (s e : Loc) (c : Cable)
    (bn : String)
    (hsL : lookupPoint (loadIndex g cbs) s = some (.submarine c))
    (heL : lookupPoint (loadIndex g cbs) e = some (.groundEx bn))
    (hs : s ∈ keys (loadIndex g cbs)) (he : e ∈ keys (loadIndex g cbs))
    (Hrec : ∀ a b, a ∈ keys (loadIndex g cbs) → b ∈ keys (loadIndex g cbs) →
      M g cbs a b < M g cbs s e → ∃ segs, recB a b = .ok segs ∧ segs ≠ []) :
    ∃ segs, submarine_to_ground (loadIndex g cbs) recB s c e = .ok segs ∧
      segs ≠ [] := by
  obtain ⟨hcmem, hsm, hlen⟩ := lookup_submarine_valid g cbs s c hsL
  obtain ⟨x, hx, hxm, hxmin⟩ := fcp_ok_of_ne_nil e (hep c hcmem)
  by_cases hxs : x = s
  · obtain ⟨segs, hd, hne⟩ := draw_gl_success (loadIndex g cbs) recB s e
      hs he (fun a b ha hb hab => Hrec a b ha hb
        (M_lt_of_rank_lt (rankD_lt (sqDist_mem_DSet ha hb) hab)))
    refine ⟨segs, ?_, hne⟩
    unfold submarine_to_ground
    simp only [hx, okBind]
    rw [if_neg (not_not_intro hxs)]
    exact hd
  · have hClx : Claims c x := ⟨hxm, hlen⟩
    have hxk : x ∈ keys (loadIndex g cbs) :=
      claimed_mem_keys g cbs c hcmem x hClx
    have hxle : sqDist x e ≤ sqDist s e := mdist_le_mdist_iff.mp (hxmin s hsm)
    have hM : M g cbs x e < M g cbs s e := by
      rcases lt_or_eq_of_le hxle with hlt | heqq
      · exact M_lt_of_rank_lt (rankD_lt (sqDist_mem_DSet hxk he) hlt)
      · have hmono := lastPos_mono g cbs s x c hsL hClx
        rcases lt_or_eq_of_le hmono.1 with hmlt | hmeq
        · exact M_lt_of_mu_lt heqq (by omega)
        · have hxL := hmono.2 hmeq
          refine M_lt_of_phi_lt heqq (by omega) ?_
          rw [phi_sub_ground hxL heL, phi_sub_ground hsL heL,
            if_pos hx, if_neg (by
              rw [hx]
              intro hc
              rw [Except.ok.injEq] at hc
              exact hxs hc)]
          norm_num
    obtain ⟨segs3, hd3, _⟩ := Hrec x e hxk he hM
    obtain ⟨sl2, hd2⟩ := draw_submarine_ok s x c.geometry c.name
      (hgeo c hcmem)
    refine ⟨[Segment.submarine sl2 c.name] ++ segs3, ?_, by simp⟩
    unfold submarine_to_ground
    simp only [hx, okBind]
    rw [if_pos hxs]
    simp only [hd2, okBind, hd3]

/-- Success of the ground-to-submarine dispatch case. -/
theorem g2s_success (g : List (String × Loc)) (cbs : List Cable)
    (hep : ∀ c ∈ cbs, c.endpoints ≠ [])
    (hgeo : ∀ c ∈ cbs, c.geometry ≠ [])
    (recB : Loc → Loc → Except PgErr (List Segment)) (s e : Loc) (c' : Cable)
    (an : String)
    (hsL : lookupPoint (loadIndex g cbs) s = some (.groundEx an))
    (heL : lookupPoint (loadIndex g cbs) e = some (.submarine c'))
    (hs : s ∈ keys (loadIndex g cbs)) (he : e ∈ keys (loadIndex g cbs))
    (Hrec : ∀ a b, a ∈ keys (loadIndex g cbs) → b ∈ keys (loadIndex g cbs) →
      M g cbs a b < M g cbs s e → ∃ segs, recB a b = .ok segs ∧ segs ≠ []) :
    ∃ segs, ground_to_submarine (loadIndex g cbs) recB s e c' = .ok segs ∧
      segs ≠ [] := by
  obtain ⟨hc'mem, hem, hlen'⟩ := lookup_submarine_valid g cbs e c' heL
  obtain ⟨y, hy, hym, hymin⟩ := fcp_ok_of_ne_nil s (hep c' hc'mem)
  by_cases hye : y = e
  · obtain ⟨segs, hd, hne⟩ := draw_gl_success (loadIndex g cbs) recB s e
      hs he (fun a b ha hb hab => Hrec a b ha hb
        (M_lt_of_rank_lt (rankD_lt (sqDist_mem_DSet ha hb) hab)))
    refine ⟨segs, ?_, hne⟩
    unfold ground_to_submarine
    simp only [hy, okBind]
    rw [if_pos hye]
    exact hd
  · have hCly : Claims c' y := ⟨hym, hlen'⟩
    have hyk : y ∈ keys (loadIndex g cbs) :=
      claimed_mem_keys g cbs c' hc'mem y hCly
    have hyle : sqDist s y ≤ sqDist s e := by
      have h2 := mdist_le_mdist_iff.mp (hymin e hem)
      rw [sqDist_comm s y, sqDist_comm s e]
      exact h2
    have hM : M g cbs s y < M g cbs s e := by
      rcases lt_or_eq_of_le hyle with hlt | heqq
      · exact M_lt_of_rank_lt (rankD_lt (sqDist_mem_DSet hs hyk) hlt)
      · have hmono := lastPos_mono g cbs e y c' heL hCly
        rcases lt_or_eq_of_le hmono.1 with hmlt | hmeq
        · exact M_lt_of_mu_lt heqq (by omega)
        · have hyL := hmono.2 hmeq
          refine M_lt_of_phi_lt heqq (by omega) ?_
          rw [phi_ground_sub hsL hyL, phi_ground_sub hsL heL,
            if_pos hy, if_neg (by
              rw [hy]
              intro hc
              rw [Except.ok.injEq] at hc
              exact hye hc)]
          norm_num
    obtain ⟨segs1, hd1, hne1⟩ := Hrec s y hs hyk hM
    obtain ⟨sl2, hd2⟩ := draw_submarine_ok y e c'.geometry c'.name
      (hgeo c' hc'mem)
    refine ⟨segs1 ++ [Segment.submarine sl2 c'.name], ?_,
      append_ne_nil_left hne1⟩
    unfold ground_to_submarine
    simp only [hy, okBind]
    rw [if_neg hye]
    simp only [hd1, okBind, hd2]

/-- Success of the submarine-to-submarine dispatch case. -/
theorem s2s_success (g : List (String × Loc)) (cbs : List Cable)
    (hep : ∀ c ∈ cbs, c.endpoints ≠ [])
    (hgeo : ∀ c ∈ cbs, c.geometry ≠ [])
    (recB : Loc → Loc → Except PgErr (List Segment)) (s e : Loc)
    (c c' : Cable)
    (hsL : lookupPoint (loadIndex g cbs) s = some (.submarine c))
    (heL : lookupPoint (loadIndex g cbs) e = some (.submarine c'))
    (hs : s ∈ keys (loadIndex g cbs)) (he : e ∈ keys (loadIndex g cbs))
    (Hrec : ∀ a b, a ∈ keys (loadIndex g cbs) → b ∈ keys (loadIndex g cbs) →
      M g cbs a b < M g cbs s e → ∃ segs, recB a b = .ok segs ∧ segs ≠ []) :
    ∃ segs, submarine_to_submarine (loadIndex g cbs) recB s c e c' =
      .ok segs ∧ segs ≠ [] := by
  obtain ⟨hcmem, hsm, hlen⟩ := lookup_submarine_valid g cbs s c hsL
  obtain ⟨hc'mem, hem, hlen'⟩ := lookup_submarine_valid g cbs e c' heL
  obtain ⟨x, hx, hxm, hxmin⟩ := fcp_ok_of_ne_nil e (hep c hcmem)
  by_cases hxs : x = s
  · -- The start's cable does not help: bridge to the end's cable.
    obtain ⟨q, hq, hqm, hqmin⟩ := fcp_ok_of_ne_nil s (hep c' hc'mem)
    have hClq : Claims c' q := ⟨hqm, hlen'⟩
    have hqk : q ∈ keys (loadIndex g cbs) :=
      claimed_mem_keys g cbs c' hc'mem q hClq
    have hqle : sqDist s q ≤ sqDist s e := by
      have h2 := mdist_le_mdist_iff.mp (hqmin e hem)
      rw [sqDist_comm s q, sqDist_comm s e]
      exact h2
    obtain ⟨segs1, hd1, hne1⟩ := draw_gl_success (loadIndex g cbs) recB s q
      hs hqk (fun a b ha hb hab => Hrec a b ha hb
        (M_lt_of_rank_lt (rankD_lt (sqDist_mem_DSet ha hb)
          (lt_of_lt_of_le hab hqle))))
    by_cases hqe : q = e
    · refine ⟨segs1, ?_, hne1⟩
      unfold submarine_to_submarine
      simp only [hx, okBind]
      rw [if_pos hxs]
      simp only [hq, okBind, hd1]
      rw [if_neg (not_not_intro hqe)]
    · obtain ⟨sl2, hd2⟩ := draw_submarine_ok q e c'.geometry c'.name
        (hgeo c' hc'mem)
      refine ⟨segs1 ++ [Segment.submarine sl2 c'.name], ?_,
        append_ne_nil_left hne1⟩
      unfold submarine_to_submarine
      simp only [hx, okBind]
      rw [if_pos hxs]
      simp only [hq, okBind, hd1]
      rw [if_pos hqe]
      simp only [hd2, okBind]
  · -- The start's cable does help: advance to its nearest endpoint.
    have hClx : Claims c x := ⟨hxm, hlen⟩
    have hxk : x ∈ keys (loadIndex g cbs) :=
      claimed_mem_keys g cbs c hcmem x hClx
    have hxle : sqDist x e ≤ sqDist s e := mdist_le_mdist_iff.mp (hxmin s hsm)
    have hM : M g cbs x e < M g cbs s e := by
      rcases lt_or_eq_of_le hxle with hlt | heqq
      · exact M_lt_of_rank_lt (rankD_lt (sqDist_mem_DSet hxk he) hlt)
      · have hmono := lastPos_mono g cbs s x c hsL hClx
        rcases lt_or_eq_of_le hmono.1 with hmlt | hmeq
        · exact M_lt_of_mu_lt heqq (by omega)
        · have hxL := hmono.2 hmeq
          refine M_lt_of_phi_lt heqq (by omega) ?_
          rw [phi_sub_sub hxL heL, phi_sub_sub hsL heL,
            if_pos hx, if_neg (by
              rw [hx]
              intro hc
              rw [Except.ok.injEq] at hc
              exact hxs hc)]
          norm_num
    obtain ⟨segs3, hd3, _⟩ := Hrec x e hxk he hM
    obtain ⟨sl2, hd2⟩ := draw_submarine_ok s x c.geometry c.name
      (hgeo c hcmem)
    refine ⟨[Segment.submarine sl2 c.name] ++ segs3, ?_, by simp⟩
    unfold submarine_to_submarine
    simp only [hx, okBind]
    rw [if_neg hxs]
    simp only [hd2, okBind, hd3]

/-- The planner succeeds with a non-empty segment list whenever the fuel
exceeds the lexicographic measure of the pair: every recursive call strictly
decreases the measure. -/
theorem build_success_aux (g : List (String × Loc)) (cbs : List Cable)
    (hcb : cbs ≠ []) (hep : ∀ c ∈ cbs, c.endpoints ≠ [])
    (hgeo : ∀ c ∈ cbs, c.geometry ≠ []) :
    ∀ n : ℕ, ∀ s e : Loc,
      s ∈ keys (loadIndex g cbs) → e ∈ keys (loadIndex g cbs) →
      M g cbs s e < n →
      ∃ segs, build_path_between (loadIndex g cbs) cbs n s e = .ok segs ∧
        segs ≠ [] := by
  intro n
  induction n with
  | zero => intro s e _ _ h; omega
  | succ n ih =>
      intro s e hs he hM
      have Hrec : ∀ a b, a ∈ keys (loadIndex g cbs) →
          b ∈ keys (loadIndex g cbs) → M g cbs a b < M g cbs s e →
          ∃ segs, build_path_between (loadIndex g cbs) cbs n a b = .ok segs ∧
            segs ≠ [] :=
        fun a b ha hb hab => ih a b ha hb (by omega)
      obtain ⟨vs, hvs⟩ := (mem_keys_iff_lookup _ s).mp hs
      obtain ⟨ve, hve⟩ := (mem_keys_iff_lookup _ e).mp he
      have hstep : ∀ segs,
          (match vs, ve with
           | .groundEx _, .groundEx _ =>
               ground_to_ground (loadIndex g cbs) cbs
                 (build_path_between (loadIndex g cbs) cbs n) s e
           | .submarine sc, .submarine ec =>
               submarine_to_submarine (loadIndex g cbs)
                 (build_path_between (loadIndex g cbs) cbs n) s sc e ec
           | .groundEx _, .submarine ec =>
               ground_to_submarine (loadIndex g cbs)
                 (build_path_between (loadIndex g cbs) cbs n) s e ec
           | .submarine sc, .groundEx _ =>
               submarine_to_ground (loadIndex g cbs)
                 (build_path_between (loadIndex g cbs) cbs n) s sc e) =
            .ok segs →
          build_path_between (loadIndex g cbs) cbs (n + 1) s e = .ok segs := by
        intro segs hcase
        show build_path_step (loadIndex g cbs) cbs
          (build_path_between (loadIndex g cbs) cbs n) s e = .ok segs
        unfold build_path_step
        rw [hvs, hve]
        exact hcase
      cases vs with
      | groundEx an =>
          cases ve with
          | groundEx bn =>
              obtain ⟨segs, hsegs, hne⟩ := g2g_success g cbs hcb hep hgeo
                (build_path_between (loadIndex g cbs) cbs n) s e hs he Hrec
              exact ⟨segs, hstep segs hsegs, hne⟩
          | submarine ec =>
              obtain ⟨segs, hsegs, hne⟩ := g2s_success g cbs hep hgeo
                (build_path_between (loadIndex g cbs) cbs n) s e ec an
                hvs hve hs he Hrec
              exact ⟨segs, hstep segs hsegs, hne⟩
      | submarine sc =>
          cases ve with
          | groundEx bn =>
              obtain ⟨segs, hsegs, hne⟩ := s2g_success g cbs hep hgeo
                (build_path_between (loadIndex g cbs) cbs n) s e sc bn
                hvs hve hs he Hrec
              exact ⟨segs, hstep segs hsegs, hne⟩
          | submarine ec =>
              obtain ⟨segs, hsegs, hne⟩ := s2s_success g cbs hep hgeo
                (build_path_between (loadIndex g cbs) cbs n) s e sc ec
                hvs hve hs he Hrec
              exact ⟨segs, hstep segs hsegs, hne⟩

/-! ### Fuel monotonicity: a successful planner result is stable under
additional fuel -/

/-- `f` refines `g` on successes: wherever `f` succeeds, `g` succeeds with
the same segments. -/
def SubLe (f recB : Loc → Loc → Except PgErr (List Segment)) : Prop :=
  ∀ a b r, f a b = .ok r → recB a b = .ok r

theorem err_ne_ok {A : Type} {er : PgErr} {r : A}
    (h : (Except.error er : Except PgErr A) = .ok r) : False :=
  Except.noConfusion h

theorem draw_gl_mono (idx : Index)
    {f recB : Loc → Loc → Except PgErr (List Segment)} (hfg : SubLe f recB) :
    ∀ s e nb r, draw_ground_line idx f s e nb = .ok r →
      draw_ground_line idx recB s e nb = .ok r := by
  intro s e nb r h
  unfold draw_ground_line at h ⊢
  by_cases hc : mdist s e > CABLE_BREAK_LEN ∧ nb = false
  · rw [if_pos hc] at h ⊢
    unfold break_path at h ⊢
    cases hm : find_closest_point ((s.1 + e.1) / 2, (s.2 + e.2) / 2)
        (keys idx) with
    | error er =>
        rw [hm, errBind] at h
        exact absurd h err_ne_ok
    | ok m =>
        rw [hm] at h
        simp only [okBind] at h ⊢
        by_cases hor : m = s ∨ m = e
        · rw [if_pos hor] at h ⊢
          exact h
        · rw [if_neg hor] at h ⊢
          cases ha : f s m with
          | error er =>
              rw [ha, errBind] at h
              exact absurd h err_ne_ok
          | ok a =>
              simp only [ha, okBind] at h
              cases hb : f m e with
              | error er =>
                  rw [hb, errBind] at h
                  exact absurd h err_ne_ok
              | ok b =>
                  simp only [hb, okBind] at h
                  simp only [hfg s m a ha, okBind, hfg m e b hb]
                  exact h
  · rw [if_neg hc] at h ⊢
    exact h

theorem g2g_mono (idx : Index) (cbs : List Cable)
    {f recB : Loc → Loc → Except PgErr (List Segment)} (hfg : SubLe f recB) :
    ∀ s e r, ground_to_ground idx cbs f s e = .ok r →
      ground_to_ground idx cbs recB s e = .ok r := by
  intro s e r h
  unfold ground_to_ground at h ⊢
  cases hres : find_closest_submarine_cable_between cbs s e with
  | error er =>
      rw [hres, errBind] at h
      exact absurd h err_ne_ok
  | ok res =>
      simp only [hres, okBind] at h ⊢
      cases res with
      | none => exact absurd h err_ne_ok
      | some wc =>
          obtain ⟨w, W⟩ := wc
          dsimp only at h ⊢
          by_cases hw : w < mdist s e
          · rw [if_pos hw] at h ⊢
            cases hfp : find_closest_point s W.endpoints with
            | error er =>
                rw [hfp, errBind] at h
                exact absurd h err_ne_ok
            | ok p =>
                simp only [hfp, okBind] at h ⊢
                cases hfx : find_closest_point e W.endpoints with
                | error er =>
                    rw [hfx, errBind] at h
                    exact absurd h err_ne_ok
                | ok x =>
                    simp only [hfx, okBind] at h ⊢
                    cases hd1 : draw_ground_line idx f s p false with
                    | error er =>
                        rw [hd1, errBind] at h
                        exact absurd h err_ne_ok
                    | ok segs1 =>
                        simp only [hd1, okBind] at h
                        simp only [draw_gl_mono idx hfg s p false segs1 hd1,
                          okBind]
                        cases hd2 : draw_submarine_cable p x W.geometry
                            W.name with
                        | error er =>
                            rw [hd2, errBind] at h
                            exact absurd h err_ne_ok
                        | ok seg2 =>
                            simp only [hd2, okBind] at h ⊢
                            cases hd3 : f x e with
                            | error er =>
                                rw [hd3, errBind] at h
                                exact absurd h err_ne_ok
                            | ok segs3 =>
                                simp only [hd3, okBind] at h
                                simp only [hfg x e segs3 hd3, okBind]
                                exact h
          · rw [if_neg hw] at h ⊢
            exact draw_gl_mono idx hfg s e false r h

theorem s2g_mono (idx : Index)
    {f recB : Loc → Loc → Except PgErr (List Segment)} (hfg : SubLe f recB) :
    ∀ s c e r, submarine_to_ground idx f s c e = .ok r →
      submarine_to_ground idx recB s c e = .ok r := by
  intro s c e r h
  unfold submarine_to_ground at h ⊢
  cases hx : find_closest_point e c.endpoints with
  | error er =>
      rw [hx, errBind] at h
      exact absurd h err_ne_ok
  | ok x =>
      simp only [hx, okBind] at h ⊢
      by_cases hxs : x ≠ s
      · rw [if_pos hxs] at h ⊢
        cases hd2 : draw_submarine_cable s x c.geometry c.name with
        | error er =>
            rw [hd2, errBind] at h
            exact absurd h err_ne_ok
        | ok seg2 =>
            simp only [hd2, okBind] at h ⊢
            cases hd3 : f x e with
            | error er =>
                rw [hd3, errBind] at h
                exact absurd h err_ne_ok
            | ok segs3 =>
                simp only [hd3, okBind] at h
                simp only [hfg x e segs3 hd3, okBind]
                exact h
      · rw [if_neg hxs] at h ⊢
        exact draw_gl_mono idx hfg s e false r h

theorem g2s_mono (idx : Index)
    {f recB : Loc → Loc → Except PgErr (List Segment)} (hfg : SubLe f recB) :
    ∀ s e c' r, ground_to_submarine idx f s e c' = .ok r →
      ground_to_submarine idx recB s e c' = .ok r := by
  intro s e c' r h
  unfold ground_to_submarine at h ⊢
  cases hy : find_closest_point s c'.endpoints with
  | error er =>
      rw [hy, errBind] at h
      exact absurd h err_ne_ok
  | ok y =>
      simp only [hy, okBind] at h ⊢
      by_cases hye : y = e
      · rw [if_pos hye] at h ⊢
        exact draw_gl_mono idx hfg s e false r h
      · rw [if_neg hye] at h ⊢
        cases hd1 : f s y with
        | error er =>
            rw [hd1, errBind] at h
            exact absurd h err_ne_ok
        | ok segs1 =>
            simp only [hd1, okBind] at h
            simp only [hfg s y segs1 hd1, okBind]
            cases hd2 : draw_submarine_cable y e c'.geometry c'.name with
            | error er =>
                rw [hd2, errBind] at h
                exact absurd h err_ne_ok
            | ok seg2 =>
                simp only [hd2, okBind] at h ⊢
                exact h

theorem s2s_mono (idx : Index)
    {f recB : Loc → Loc → Except PgErr (List Segment)} (hfg : SubLe f recB) :
    ∀ s c e c' r, submarine_to_submarine idx f s c e c' = .ok r →
      submarine_to_submarine idx recB s c e c' = .ok r := by
  intro s c e c' r h
  unfold submarine_to_submarine at h ⊢
  cases hx : find_closest_point e c.endpoints with
  | error er =>
      rw [hx, errBind] at h
      exact absurd h err_ne_ok
  | ok x =>
      simp only [hx, okBind] at h ⊢
      by_cases hxs : x = s
      · rw [if_pos hxs] at h ⊢
        cases hq : find_closest_point s c'.endpoints with
        | error er =>
            rw [hq, errBind] at h
            exact absurd h err_ne_ok
        | ok q =>
            simp only [hq, okBind] at h ⊢
            cases hd1 : draw_ground_line idx f s q false with
            | error er =>
                rw [hd1, errBind] at h
                exact absurd h err_ne_ok
            | ok segs1 =>
                simp only [hd1, okBind] at h
                simp only [draw_gl_mono idx hfg s q false segs1 hd1, okBind]
                by_cases hqe : q ≠ e
                · rw [if_pos hqe] at h ⊢
                  cases hd2 : draw_submarine_cable q e c'.geometry
                      c'.name with
                  | error er =>
                      rw [hd2, errBind] at h
                      exact absurd h err_ne_ok
                  | ok seg2 =>
                      simp only [hd2, okBind] at h ⊢
                      exact h
                · rw [if_neg hqe] at h ⊢
                  exact h
      · rw [if_neg hxs] at h ⊢
        cases hd2 : draw_submarine_cable s x c.geometry c.name with
        | error er =>
            rw [hd2, errBind] at h
            exact absurd h err_ne_ok
        | ok seg2 =>
            simp only [hd2, okBind] at h ⊢
            cases hd3 : f x e with
            | error er =>
                rw [hd3, errBind] at h
                exact absurd h err_ne_ok
            | ok segs3 =>
                simp only [hd3, okBind] at h
                simp only [hfg x e segs3 hd3, okBind]
                exact h

theorem step_mono (idx : Index) (cbs : List Cable)
    {f recB : Loc → Loc → Except PgErr (List Segment)} (hfg : SubLe f recB) :
    ∀ s e r, build_path_step idx cbs f s e = .ok r →
      build_path_step idx cbs recB s e = .ok r := by
  intro s e r h
  unfold build_path_step at h ⊢
  cases hvs : lookupPoint idx s with
  | none =>
      rw [hvs] at h
      cases hve : lookupPoint idx e <;> (rw [hve] at h; exact absurd h err_ne_ok)
  | some vs =>
      rw [hvs] at h
      cases hve : lookupPoint idx e with
      | none =>
          rw [hve] at h
          cases vs <;> exact absurd h err_ne_ok
      | some ve =>
          rw [hve] at h
          cases vs with
          | groundEx an =>
              cases ve with
              | groundEx bn => exact g2g_mono idx cbs hfg s e r h
              | submarine ec => exact g2s_mono idx hfg s e ec r h
          | submarine sc =>
              cases ve with
              | groundEx bn => exact s2g_mono idx hfg s sc e r h
              | submarine ec => exact s2s_mono idx hfg s sc e ec r h

theorem build_mono_succ (idx : Index) (cbs : List Cable) :
    ∀ n, SubLe (build_path_between idx cbs n)
      (build_path_between idx cbs (n + 1)) := by
  intro n
  induction n with
  | zero =>
      intro a b r h
      exact absurd h err_ne_ok
  | succ n ih =>
      intro a b r h
      exact step_mono idx cbs ih a b r h

/-- A successful planner run is stable under additional fuel. -/
theorem build_mono (idx : Index) (cbs : List Cable) :
    ∀ n m, n ≤ m → ∀ s e r, build_path_between idx cbs n s e = .ok r →
      build_path_between idx cbs m s e = .ok r := by
  intro n m hnm
  induction m with
  | zero =>
      intro s e r h
      have hn0 : n = 0 := Nat.le_zero.mp hnm
      rw [hn0] at h
      exact h
  | succ m ih =>
      intro s e r h
      rcases Nat.lt_or_ge n (m + 1) with hlt | hge
      · exact build_mono_succ idx cbs m s e r (ih (by omega) s e r h)
      · have : n = m + 1 := by omega
        rw [this] at h
        exact h

/-! ### Claim C2 -/

/-- `find_closest_point` at a target that is itself a member of the candidate
list returns the target: its distance to itself is `0`, and any candidate at
distance `0` from the target equals it. -/
theorem fcp_mem_self {e : Loc} {l : List Loc} (hmem : e ∈ l) :
    find_closest_point e l = .ok e := by
  have hl : l ≠ [] := by
    intro hc
    rw [hc] at hmem
    cases hmem
  obtain ⟨x, hx, hxm, hxmin⟩ := fcp_ok_of_ne_nil e hl
  have h0 : sqDist x e ≤ sqDist e e := mdist_le_mdist_iff.mp (hxmin e hmem)
  have hee : sqDist e e = 0 := by
    unfold sqDist
    ring
  have hxe : x = e := by
    by_contra hne
    have hpos := sqDist_pos_of_ne hne
    rw [hee] at h0
    linarith
  rwa [hxe] at hx

/-- What the planner actually does on two distinct landing points of the same
cable (nonempty geometry): since the same-cable test of map.py line 192 never
fires, the run goes through the "different cable" branch — the nearest
endpoint of the start's cable to `e` is `e` itself, so the submarine segment
`s → e` is drawn and the planner recurses on `(e, e)`; that recursive call
finds its own nearest endpoint to be its start, draws the degenerate ground
segment `e → e`, and skips the second submarine segment.  Net effect: two
segments, a `SubmarineLine` followed by a zero-length ground line. -/
theorem same_cable_two_segments (idx : Index) (cables : List Cable)
    (n : ℕ) (s e : Loc) (c c' : Cable)
    (hs : lookupPoint idx s = some (.submarine c))
    (he : lookupPoint idx e = some (.submarine c'))
    (hmem : e ∈ c.endpoints) (hmem' : e ∈ c'.endpoints)
    (hne : s ≠ e) (hgeo : c.geometry ≠ []) :
    ∃ sl, build_path_between idx cables (n + 2) s e =
      .ok [.submarine sl c.name, .ground e e] := by
  obtain ⟨sl, hdraw⟩ := draw_submarine_ok s e c.geometry c.name hgeo
  refine ⟨sl, ?_⟩
  have hinner : build_path_between idx cables (n + 1) e e =
      .ok [Segment.ground e e] := by
    show build_path_step idx cables (build_path_between idx cables n) e e = _
    unfold build_path_step
    rw [he]
    show submarine_to_submarine idx (build_path_between idx cables n)
      e c' e c' = _
    unfold submarine_to_submarine
    simp only [fcp_mem_self hmem', okBind]
    rw [if_pos trivial]
    have hgl : draw_ground_line idx (build_path_between idx cables n) e e
        false = .ok [Segment.ground e e] := by
      refine draw_gl_direct_eq ?_
      rw [mdist_self]
      unfold CABLE_BREAK_LEN
      norm_num
    simp only [hgl, okBind]
    rw [if_neg (not_not_intro rfl)]
  show build_path_step idx cables (build_path_between idx cables (n + 1))
    s e = _
  unfold build_path_step
  rw [hs, he]
  show submarine_to_submarine idx (build_path_between idx cables (n + 1))
    s c e c' = _
  unfold submarine_to_submarine
  simp only [fcp_mem_self hmem, okBind]
  rw [if_neg (fun hc => hne hc.symm)]
  simp only [hdraw, okBind, hinner]
  rfl

/-- The cable used in the concrete C2 runs. -/
def cblC2 : Cable := ⟨"C", [(0, 0), (1, 0)], [(0, 0)]⟩

/-- **C2** (corrected, counterexample): two distinct infrastructure points,
both landing points of cable `cblC2`, on which the planner emits *two*
segments — a `SubmarineLine` followed by a degenerate ground segment from
`end` to `end` — not "exactly one SubmarineLine segment and no other
segments": the same-cable test of map.py line 192 compares a tuple with
lists and never fires, so the different-cable path runs instead. -/
theorem C2_counterexample :
    (∃ sl, build_path_between (loadIndex [] [cblC2]) [cblC2] 2
        ((0 : ℚ), (0 : ℚ)) ((1 : ℚ), (0 : ℚ)) =
        .ok [.submarine sl cblC2.name,
          .ground ((1 : ℚ), (0 : ℚ)) ((1 : ℚ), (0 : ℚ))]) ∧
      lookupPoint (loadIndex [] [cblC2]) ((0 : ℚ), (0 : ℚ)) =
        some (.submarine cblC2) ∧
      lookupPoint (loadIndex [] [cblC2]) ((1 : ℚ), (0 : ℚ)) =
        some (.submarine cblC2) ∧
      ((0 : ℚ), (0 : ℚ)) ∈ cblC2.endpoints ∧
      ((1 : ℚ), (0 : ℚ)) ∈ cblC2.endpoints ∧
      ((0 : ℚ), (0 : ℚ)) ≠ ((1 : ℚ), (0 : ℚ)) :=
  ⟨same_cable_two_segments (loadIndex [] [cblC2]) [cblC2] 0
      ((0 : ℚ), (0 : ℚ)) ((1 : ℚ), (0 : ℚ)) cblC2 cblC2
      (by decide) (by decide) (by decide) (by decide) (by decide) (by decide),
    by decide, by decide, by decide, by decide, by decide⟩

/-- **C2** (amended): for every pair of distinct indexed points that are
landing points of the same cable `c` (with `e` also among the endpoints of
the cable the index stores for `e`, and `c`'s geometry nonempty), the
planner emits exactly *two* segments: one `SubmarineLine` referencing `c`
followed by a degenerate ground segment from `end` to `end` — because the
same-cable membership test of map.py line 192 (tuple vs. list) never fires
and the different-cable branch runs instead. -/
theorem C2_amended_same_cable_two_segments (idx : Index)
    (cables : List Cable) (n : ℕ) (s e : Loc) (c c' : Cable)
    (hs : lookupPoint idx s = some (.submarine c))
    (he : lookupPoint idx e = some (.submarine c'))
    (hmem : e ∈ c.endpoints) (hmem' : e ∈ c'.endpoints)
    (hne : s ≠ e) (hgeo : c.geometry ≠ []) :
    ∃ sl, build_path_between idx cables (n + 2) s e =
      .ok [.submarine sl c.name, .ground e e] :=
  same_cable_two_segments idx cables n s e c c' hs he hmem hmem' hne hgeo

theorem C2_amended_same_cable_two_segments_witness :
    ∃ sl, build_path_between (loadIndex [] [cblC2]) [cblC2] (1 + 2)
      ((0 : ℚ), (0 : ℚ)) ((1 : ℚ), (0 : ℚ)) =
      .ok [.submarine sl cblC2.name,
        .ground ((1 : ℚ), (0 : ℚ)) ((1 : ℚ), (0 : ℚ))] :=
  C2_amended_same_cable_two_segments (loadIndex [] [cblC2]) [cblC2] 1
    ((0 : ℚ), (0 : ℚ)) ((1 : ℚ), (0 : ℚ)) cblC2 cblC2
    (by decide) (by decide) (by decide) (by decide) (by decide) (by decide)

/-! ### Claim C1 -/

/-- **C1** (corrected, counterexample): a loaded index holding two ground
exchanges together with an *empty* submarine catalog: the pair is reachable
through the dispatch table, yet `build_path_between` emits no segment list —
it fails with the `TypeError` of comparing `None < float` (the claimed
"non-empty, finite sequence of path segments" is not produced). -/
theorem C1_counterexample :
    build_path_between (loadIndex [("A", (0, 0)), ("B", (1, 0))] []) [] 3
      ((0 : ℚ), (0 : ℚ)) ((1 : ℚ), (0 : ℚ)) = .error .typeError := rfl

/-- **C1** (amended): for every pair of infrastructure points snapped into
the loaded index, provided the submarine catalog is non-empty and every
cable record has at least one endpoint and a non-empty geometry,
`build_path_between` terminates: there is a fuel bound (any `n` above the
lexicographic measure of the pair) at which it returns a non-empty, finite
segment list, and the result is stable: every larger fuel bound returns
the same segment list.  Every recursive call strictly decreases the
measure (squared-distance rank, then last-writer catalog position, then
the nearest-endpoint fixpoint flag) — so no such input causes infinite
recursion. -/
theorem C1_amended_planner_terminates (g : List (String × Loc))
    (cbs : List Cable) (hcb : cbs ≠ [])
    (hep : ∀ c ∈ cbs, c.endpoints ≠ [])
    (hgeo : ∀ c ∈ cbs, c.geometry ≠ [])
    (s e : Loc) (hs : s ∈ keys (loadIndex g cbs))
    (he : e ∈ keys (loadIndex g cbs)) :
    ∃ n segs, build_path_between (loadIndex g cbs) cbs n s e = .ok segs ∧
      segs ≠ [] ∧
      ∀ m, n ≤ m →
        build_path_between (loadIndex g cbs) cbs m s e = .ok segs := by
  obtain ⟨segs, h1, h2⟩ := build_success_aux g cbs hcb hep hgeo
    (M g cbs s e + 1) s e hs he (by omega)
  exact ⟨M g cbs s e + 1, segs, h1, h2,
    fun m hm => build_mono (loadIndex g cbs) cbs _ m hm s e segs h1⟩

theorem C1_amended_planner_terminates_witness :
    ∃ n segs,
      build_path_between
        (loadIndex [("A", (5, 0))] [⟨"X", [(0, 0), (1, 0)], [(0, 0)]⟩])
        [⟨"X", [(0, 0), (1, 0)], [(0, 0)]⟩] n ((5 : ℚ), (0 : ℚ))
        ((1 : ℚ), (0 : ℚ)) = .ok segs ∧ segs ≠ [] ∧
      ∀ m, n ≤ m →
        build_path_between
          (loadIndex [("A", (5, 0))] [⟨"X", [(0, 0), (1, 0)], [(0, 0)]⟩])
          [⟨"X", [(0, 0), (1, 0)], [(0, 0)]⟩] m ((5 : ℚ), (0 : ℚ))
          ((1 : ℚ), (0 : ℚ)) = .ok segs :=
  C1_amended_planner_terminates [("A", (5, 0))]
    [⟨"X", [(0, 0), (1, 0)], [(0, 0)]⟩] (by decide) (by decide) (by decide)
    ((5 : ℚ), (0 : ℚ)) ((1 : ℚ), (0 : ℚ)) (by decide) (by decide)

end PGT
